import Mathlib

/-!
# Sixteen: a driver for chains of 16-segment display modules

A shallow embedding of `Sixteen.cpp`.

Conventions of the embedding.

* The target is an AVR board (`avr/pgmspace.h`): `char` is a signed 8-bit
  integer.  A `char` is an `Int`; every conversion of an `int` result to
  `char` goes through `toChar`, which wraps modulo 256 into `-128..127`.
* `int` values are `Int`.  Signed `int` overflow has no defined result in C++;
  every theorem below is stated where the `int` arithmetic stays in range.
* `uint16_t` and `uint32_t` values are `Nat`, reduced modulo `2^16`
  and `2^32` where the source converts or shifts.
* The header `Sixteen.h` is not among the sources.  Its
  constants `maxNumScreens` and `lastChar` and its table `font` are
  parameters of the definitions that use them.
* The hardware is a trace of `Event`s, in the order the calls are made.
* Methods that can change the engine return the engine together with the trace.
-/

namespace Sixteen

/-- Conversion of an `int` value to the signed 8-bit `char`. -/
def toChar (x : Int) : Int := (x + 128) % 256 - 128

/-- The calls the driver makes to the Arduino core. -/
inductive Event where
  /-- Models `pinMode(pin, OUTPUT)`. -/
  | pinMode (pin : Int)
  /-- Models `digitalWrite(pin, level)`; `true` is `HIGH`. -/
  | digitalWrite (pin : Int) (level : Bool)
  /-- Models `delayMicroseconds(us)`. -/
  | delayMicroseconds (us : Int)
  /-- Models `delay(ms)`. -/
  | delay (ms : Int)
  deriving DecidableEq, Repr

/-- The data members of the class: the number of registered screens and the
two pin arrays.  An array is the function from index to stored value; the
arrays have `maxNumScreens` cells, and a store outside `0..maxNumScreens-1`
is a fault (see `addScreen`). -/
structure Engine where
  numScreens : Int
  dataPins : Int → Int
  clockPins : Int → Int

/-- Array store `a[i] = v`. -/
def store (a : Int → Int) (i v : Int) : Int → Int :=
  fun j => if j = i then v else a j

/-- The constructor `Sixteen::Sixteen()`: it sets `numScreens` to zero and
leaves the arrays as they are (`dataPins0`, `clockPins0` are their
indeterminate initial contents). -/
def new (dataPins0 clockPins0 : Int → Int) : Engine :=
  { numScreens := 0, dataPins := dataPins0, clockPins := clockPins0 }

/-- The method `Sixteen::addScreen`.  The result is `none` when the two
array stores would fall outside the arrays. -/
def addScreen (maxNumScreens : Int) (st : Engine) (dataPin clockPin : Int) :
    Option (Engine × List Event) :=
  if st.numScreens = maxNumScreens then some (st, [])
  else if 0 ≤ st.numScreens ∧ st.numScreens < maxNumScreens then
    some ({ numScreens := st.numScreens + 1
            dataPins := store st.dataPins st.numScreens dataPin
            clockPins := store st.clockPins st.numScreens clockPin },
          [Event.pinMode dataPin, Event.pinMode clockPin,
           Event.digitalWrite dataPin false, Event.digitalWrite clockPin false])
  else none

/-- The method `Sixteen::writeBit`. -/
def writeBit (st : Engine) (screen : Int) (bit : Bool) : Engine × List Event :=
  (st, [Event.digitalWrite (st.dataPins screen) bit,
        Event.digitalWrite (st.clockPins screen) true,
        Event.delayMicroseconds 10,
        Event.digitalWrite (st.clockPins screen) false])

/-- The loop `for (int i = 0; i < 32; i++) writeBit(screen, (frame >> i) & 1)`
of `writeMask`, started at `i` with `n = 32 - i` iterations to go. -/
def writeMaskLoop (screen : Int) (frame : Nat) : Nat → Nat → Engine → Engine × List Event
  | 0, _, st => (st, [])
  | n + 1, i, st =>
    let r1 := writeBit st screen (((frame >>> i) &&& 1) != 0)
    let r2 := writeMaskLoop screen frame n (i + 1) r1.1
    (r2.1, r1.2 ++ r2.2)

/-- The method `Sixteen::writeMask`. -/
def writeMask (st : Engine) (screen : Int) (frame : Nat) : Engine × List Event :=
  let r1 := writeBit st screen true
  let r2 := writeBit r1.1 screen false
  let r3 := writeMaskLoop screen frame 32 0 r2.1
  let r4 := writeBit r3.1 screen false
  let r5 := writeBit r4.1 screen false
  (r5.1, r1.2 ++ r2.2 ++ r3.2 ++ r4.2 ++ r5.2)

/-- The method `Sixteen::charMask`, with the list of `font` indices it reads.
`'a' = 97`, `'z' = 122`, `'z' - 'Z' = 32`. -/
def charMaskLogged (font : Int → Nat) (lastChar : Int) (c : Int) : Nat × List Int :=
  let c := if c ≥ 97 ∧ c ≤ 122 then toChar (c - 32) else c
  if c < 0 ∨ c > lastChar then (0, [])
  else (font c % 2 ^ 16, [c])

/-- The value `Sixteen::charMask` returns. -/
def charMask (font : Int → Nat) (lastChar : Int) (c : Int) : Nat :=
  (charMaskLogged font lastChar c).1

/-- The `font` indices `Sixteen::charMask` reads. -/
def charMaskReads (font : Int → Nat) (lastChar : Int) (c : Int) : List Int :=
  (charMaskLogged font lastChar c).2

/-- The local `lframe` of `writeChars` after `lframe <<= 8`. -/
def lframe (font : Int → Nat) (lastChar : Int) (lchar : Int) : Nat :=
  (charMask font lastChar lchar <<< 8) % 2 ^ 32

/-- The local `rframe_low` of `writeChars` after `rframe_low &= 0x00ffu`. -/
def rframe_low (font : Int → Nat) (lastChar : Int) (rchar : Int) : Nat :=
  charMask font lastChar rchar &&& 0x00ff

/-- The local `rframe_high` of `writeChars` after `rframe_high <<= 16`. -/
def rframe_high (font : Int → Nat) (lastChar : Int) (rchar : Int) : Nat :=
  ((charMask font lastChar rchar &&& 0xff00) <<< 16) % 2 ^ 32

/-- The frame `rframe_low | lframe | rframe_high` that `writeChars` hands to
`writeMask`. -/
def writeCharsFrame (font : Int → Nat) (lastChar : Int) (lchar rchar : Int) : Nat :=
  rframe_low font lastChar rchar ||| lframe font lastChar lchar |||
    rframe_high font lastChar rchar

/-- The method `Sixteen::writeChars`. -/
def writeChars (font : Int → Nat) (lastChar : Int) (st : Engine)
    (screen : Int) (lchar rchar : Int) : Engine × List Event :=
  writeMask st screen (writeCharsFrame font lastChar lchar rchar)

/-- The calls `scroll` and `digitTest` make, in order. -/
inductive Call where
  /-- Models `writeChars(screen, lchar, rchar)`. -/
  | writeChars (screen lchar rchar : Int)
  /-- Models `delay(ms)`. -/
  | delay (ms : Int)
  deriving DecidableEq, Repr

/-- The two ways a run of the model stops without returning. -/
inductive Fault where
  /-- A read or store outside the object it addresses. -/
  | outOfBounds
  /-- The loop was still running when the step budget ran out. -/
  | outOfFuel
  deriving DecidableEq, Repr

/-- The read `*(message + i)`.  A message is the list of its characters before
the terminating null: index `msg.length` holds the null, and every other
index outside `0..msg.length` is outside the string. -/
def deref (msg : List Int) (i : Int) : Except Fault Int :=
  if i < 0 then .error .outOfBounds
  else match msg[i.toNat]? with
    | some c => .ok c
    | none => if i = msg.length then .ok 0 else .error .outOfBounds

/-- The locals of `scroll` that change from frame to frame.  `farRight` is
the offset of the pointer `farRight` from `message`. -/
structure Cursor where
  farRight : Int
  stringExhausted : Bool
  highestDigitPadded : Int
  lowestDigitPadded : Int
  deriving DecidableEq, Repr

/-- The character `scroll` computes for digit `thisDigit` (the two
`if / else if / else` blocks of the loop body; `' ' = 32`). -/
def digitChar (msg : List Int) (numDigits lastDigit : Int) (cur : Cursor)
    (thisDigit : Int) : Except Fault Int :=
  if cur.highestDigitPadded ≥ thisDigit then .ok 32
  else if cur.lowestDigitPadded ≤ thisDigit then .ok 32
  else deref msg (cur.farRight - (lastDigit - thisDigit) + (numDigits - cur.lowestDigitPadded))

/-- The loop `for (int screen = numScreens - 1; screen >= 0; screen--)` of
`scroll`, with `n = screen + 1` screens still to write. -/
def scrollScreens (msg : List Int) (numDigits lastDigit : Int) (cur : Cursor) :
    Nat → Except Fault (List Call)
  | 0 => .ok []
  | n + 1 => do
    let screen : Int := n
    let right ← digitChar msg numDigits lastDigit cur (screen * 2 + 1)
    let left ← digitChar msg numDigits lastDigit cur (screen * 2)
    let rest ← scrollScreens msg numDigits lastDigit cur n
    pure (Call.writeChars screen left right :: rest)

/-- The cursor updates at the end of the body of the `while` loop of `scroll`. -/
def scrollAdvance (msg : List Int) (cur : Cursor) : Except Fault Cursor := do
  let highest :=
    if cur.highestDigitPadded ≥ 0 then toChar (cur.highestDigitPadded - 1)
    else cur.highestDigitPadded
  if cur.stringExhausted then
    pure { cur with highestDigitPadded := highest
                    lowestDigitPadded := toChar (cur.lowestDigitPadded - 1) }
  else
    let c ← deref msg (cur.farRight + 1)
    pure { cur with highestDigitPadded := highest
                    farRight := cur.farRight + 1
                    stringExhausted := (c == 0) }

/-- The loop `while (lowestDigitPadded >= 0)` of `scroll`; `fuel` bounds the
number of times the loop condition is evaluated. -/
def scrollLoop (msg : List Int) (numScreens : Int) (delay_ms : Int) :
    Nat → Cursor → Except Fault (List Call)
  | 0, _ => .error .outOfFuel
  | fuel + 1, cur =>
    if cur.lowestDigitPadded ≥ 0 then do
      let numDigits := numScreens * 2
      let lastDigit := numDigits - 1
      let calls ← scrollScreens msg numDigits lastDigit cur numScreens.toNat
      let cur' ← scrollAdvance msg cur
      let rest ← scrollLoop msg numScreens delay_ms fuel cur'
      pure (calls ++ Call.delay delay_ms :: rest)
    else pure []

/-- The calls made by the method `Sixteen::scroll` on an engine with
`numScreens` registered screens. -/
def scrollCalls (numScreens : Int) (msg : List Int) (delay_ms : Int) (fuel : Nat) :
    Except Fault (List Call) := do
  let c ← deref msg 0
  if c = 0 then pure []
  else
    let numDigits := numScreens * 2
    let lastDigit := numDigits - 1
    scrollLoop msg numScreens delay_ms fuel
      { farRight := 0
        stringExhausted := false
        highestDigitPadded := toChar (lastDigit - 1)
        lowestDigitPadded := toChar (lastDigit + 1) }

/-- The loop of `Sixteen::digitTest`, with loop variable `i`; `fuel` bounds
the number of times the loop condition is evaluated. -/
def digitTestLoop (lastChar : Int) (screen : Int) : Nat → Int → Except Fault (List Call)
  | 0, _ => .error .outOfFuel
  | fuel + 1, i =>
    if i ≤ lastChar then do
      let rest ← digitTestLoop lastChar screen fuel (toChar (i + 2))
      pure (Call.writeChars screen i (toChar (i + 1)) :: Call.delay 1500 :: rest)
    else pure []

/-- The calls made by the method `Sixteen::digitTest`. -/
def digitTestCalls (lastChar : Int) (screen : Int) (startAt : Int) (fuel : Nat) :
    Except Fault (List Call) :=
  digitTestLoop lastChar screen fuel startAt

/-- One call, carried out on the engine. -/
def perform (font : Int → Nat) (lastChar : Int) (st : Engine) : Call → Engine × List Event
  | .writeChars screen lchar rchar => writeChars font lastChar st screen lchar rchar
  | .delay ms => (st, [Event.delay ms])

/-- A sequence of calls, carried out in order. -/
def performAll (font : Int → Nat) (lastChar : Int) : Engine → List Call → Engine × List Event
  | st, [] => (st, [])
  | st, c :: cs =>
    let r1 := perform font lastChar st c
    let r2 := performAll font lastChar r1.1 cs
    (r2.1, r1.2 ++ r2.2)

/-- The method `Sixteen::scroll`. -/
def scroll (font : Int → Nat) (lastChar : Int) (st : Engine) (msg : List Int)
    (delay_ms : Int) (fuel : Nat) : Except Fault (Engine × List Event) := do
  let calls ← scrollCalls st.numScreens msg delay_ms fuel
  pure (performAll font lastChar st calls)

/-- The method `Sixteen::digitTest`. -/
def digitTest (font : Int → Nat) (lastChar : Int) (st : Engine) (screen : Int)
    (startAt : Int) (fuel : Nat) : Except Fault (Engine × List Event) := do
  let calls ← digitTestCalls lastChar screen startAt fuel
  pure (performAll font lastChar st calls)

/-- The public operations of the class, with their arguments. -/
inductive Op where
  | addScreen (dataPin clockPin : Int)
  | writeChars (screen lchar rchar : Int)
  | scroll (msg : List Int) (delay_ms : Int)
  | digitTest (screen startAt : Int)

/-- One public operation run on the engine. -/
def Op.exec (maxNumScreens : Int) (font : Int → Nat) (lastChar : Int) (st : Engine)
    (fuel : Nat) : Op → Except Fault (Engine × List Event)
  | .addScreen dataPin clockPin =>
    match Sixteen.addScreen maxNumScreens st dataPin clockPin with
    | some r => .ok r
    | none => .error .outOfBounds
  | .writeChars screen lchar rchar =>
    .ok (Sixteen.writeChars font lastChar st screen lchar rchar)
  | .scroll msg delay_ms => Sixteen.scroll font lastChar st msg delay_ms fuel
  | .digitTest screen startAt => Sixteen.digitTest font lastChar st screen startAt fuel

/-- The engines a program can hold: the freshly constructed one, and every
engine returned by a public operation run on one of them. -/
inductive Reachable (maxNumScreens : Int) (font : Int → Nat) (lastChar : Int) :
    Engine → Prop where
  | fresh (dataPins0 clockPins0 : Int → Int) :
    Reachable maxNumScreens font lastChar (new dataPins0 clockPins0)
  | step (st st' : Engine) (op : Op) (fuel : Nat) (tr : List Event) :
    Reachable maxNumScreens font lastChar st →
    Op.exec maxNumScreens font lastChar st fuel op = .ok (st', tr) →
    Reachable maxNumScreens font lastChar st'

/-! ## Definitions used to state the properties -/

/-- The wire frame as the specification lays it out: enable bit, spacer,
payload bits `0..31` of `frame` least significant first, two spacers. -/
def wireBits (frame : Nat) : List Bool :=
  [true, false] ++ (List.range 32).map (fun i => frame.testBit i) ++ [false, false]

/-- One animation frame as a list of `(screen, lchar, rchar)` triples, turned
into the calls it stands for: the `writeChars` calls in order, then one
`delay(delay_ms)`. -/
def frameCalls (delay_ms : Int) (frame : List (Int × Int × Int)) : List Call :=
  frame.map (fun w => Call.writeChars w.1 w.2.1 w.2.2) ++ [Call.delay delay_ms]

/-- The character at offset `i` of the padded message, the closed form the
loop of `scroll` is compared with: the message character inside the string,
the terminating null at offset `msg.length` (the loop reads it like a message
character), and the blank `' '` before the string and after the null. -/
def paddedChar (msg : List Int) (i : Int) : Int :=
  if i < 0 then 32
  else match msg[i.toNat]? with
    | some c => c
    | none => if i = msg.length then 0 else 32

/-- Frame number `k` (counted from 1) of the marquee in closed form: screen
`s`, for `s = n-1, ..., 0`, gets the padded-message characters at offsets
`2s + k - 2n` (left digit) and `2s + 1 + k - 2n` (right digit). -/
def closedFrame (msg : List Int) (n k : Nat) : List (Int × Int × Int) :=
  (List.range n).reverse.map (fun (s : Nat) =>
    ((s : Int), paddedChar msg (2 * (s : Int) + k - 2 * n),
      paddedChar msg (2 * (s : Int) + 1 + k - 2 * n)))

/-- The frames of the whole marquee in closed form: frames number `1` to
`msg.length + 2 * n + 1`. -/
def closedFrames (msg : List Int) (n : Nat) : List (List (Int × Int × Int)) :=
  (List.range' 1 (msg.length + 2 * n + 1)).map (closedFrame msg n)

/-- The character a list of frames shows at digit `d` in frame number `k`
(counted from 1): the left or right argument of the `writeChars` call of that
frame whose screen is `d / 2`. -/
def shownAt (frames : List (List (Int × Int × Int))) (k d : Nat) : Option Int :=
  match frames[k - 1]? with
  | none => none
  | some frame =>
    match frame.find? (fun w => w.1 = ((d / 2 : Nat) : Int)) with
    | none => none
    | some w => some (if d % 2 = 0 then w.2.1 else w.2.2)

/-- The state of the cursors of `scroll` at the start of frame number `k`
(counted from 1), for `n` screens and a message of length `len`. -/
def cursorAt (n len k : Nat) : Cursor :=
  { farRight := if (k : Int) - 1 ≤ len then (k : Int) - 1 else len
    stringExhausted := decide ((len : Int) ≤ (k : Int) - 1)
    highestDigitPadded :=
      if n = 0 then -2
      else if (k : Int) ≤ 2 * n - 1 then 2 * (n : Int) - 1 - k else -1
    lowestDigitPadded :=
      if (k : Int) ≤ len + 1 then 2 * (n : Int) else 2 * (n : Int) + len + 1 - k }

/-- The level last driven on `pin` in a trace: the level of the last
`digitalWrite` to that pin, `none` when the trace has none. -/
def lastLevel (pin : Int) : List Event → Option Bool
  | [] => none
  | e :: es =>
    match lastLevel pin es with
    | some v => some v
    | none =>
      match e with
      | .digitalWrite p v => if p = pin then some v else none
      | _ => none

/-- The number of times a trace drives `pin` HIGH. -/
def countHigh (pin : Int) (tr : List Event) : Nat :=
  tr.countP (fun e => decide (e = Event.digitalWrite pin true))

/-- Step number `j` (counted from 0) of `digitTest` as the specification
describes it: `writeChars(screen, c0 + 2j, c0 + 2j + 1)`, then `delay(1500)`. -/
def digitTestStep (screen c0 : Int) (j : Nat) : List Call :=
  [Call.writeChars screen (c0 + 2 * j) (c0 + 2 * j + 1), Call.delay 1500]

/-- An engine with two registered screens, on pins `(2, 3)` and `(4, 5)`. -/
def demoEngine : Engine :=
  { numScreens := 2
    dataPins := fun i => if i = 0 then 2 else if i = 1 then 4 else 0
    clockPins := fun i => if i = 0 then 3 else if i = 1 then 5 else 0 }

/-- The engine after `addScreen(2, 3)` on a fresh engine whose arrays held
zeros. -/
def demoOne : Engine :=
  { numScreens := 1
    dataPins := store (fun _ => 0) 0 2
    clockPins := store (fun _ => 0) 0 3 }

/-- A font table whose entry for character `c` is `c + 0x4100`. -/
def demoFont : Int → Nat := fun c => c.toNat + 0x4100

/-! ## The wire frame of `writeMask` -/

theorem writeBit_engine (st : Engine) (screen : Int) (bit : Bool) :
    (writeBit st screen bit).1 = st := rfl

theorem shift_and_one (frame i : Nat) :
    (((frame >>> i) &&& 1) != 0) = frame.testBit i := by
  simp [Nat.testBit, Nat.and_comm]

theorem writeMaskLoop_eq (screen : Int) (frame : Nat) :
    ∀ (n i : Nat) (st : Engine),
      writeMaskLoop screen frame n i st =
        (st, ((List.range' i n).map (fun j => frame.testBit j)).flatMap
               (fun b => (writeBit st screen b).2)) := by
  intro n
  induction n with
  | zero => intro i st; simp [writeMaskLoop]
  | succ n ih =>
    intro i st
    simp only [writeMaskLoop, writeBit_engine, ih, shift_and_one, List.range'_succ,
      List.map_cons, List.flatMap_cons]

theorem writeMask_eq (st : Engine) (screen : Int) (frame : Nat) :
    writeMask st screen frame =
      (st, (wireBits frame).flatMap (fun b => (writeBit st screen b).2)) := by
  simp only [writeMask, writeBit_engine, writeMaskLoop_eq, wireBits,
    List.range_eq_range', List.flatMap_append, List.flatMap_cons, List.flatMap_nil,
    List.append_nil, List.append_assoc]

theorem wireBits_cons (frame : Nat) :
    wireBits frame =
      true :: false :: ((List.range 32).map (fun i => frame.testBit i) ++ [false, false]) := by
  simp [wireBits]

/-- Claim C1: for every chain index `screen` and every frame, `writeMask`
makes exactly 36 `writeBit` calls on that chain, with bit values 1, 0, the bits
0..31 of the frame (least significant first), 0, 0: its trace is the
concatenation of the traces of those 36 calls, the list of bit values has
length 36 and is laid out as stated, and the engine is returned as it was. -/
theorem writeMask_wire_frame (st : Engine) (screen : Int) (frame : Nat) :
    writeMask st screen frame =
        (st, (wireBits frame).flatMap (fun b => (writeBit st screen b).2)) ∧
      (wireBits frame).length = 36 ∧
      (wireBits frame)[0]? = some true ∧
      (wireBits frame)[1]? = some false ∧
      (∀ i : Nat, i < 32 → (wireBits frame)[i + 2]? = some (frame.testBit i)) ∧
      (wireBits frame)[34]? = some false ∧
      (wireBits frame)[35]? = some false := by
  refine ⟨writeMask_eq st screen frame, by simp [wireBits], by simp [wireBits],
    by simp [wireBits], ?_, ?_, ?_⟩
  · intro i hi
    rw [wireBits_cons]
    simp only [List.getElem?_cons_succ]
    rw [List.getElem?_append_left (by simpa using hi)]
    simp [List.getElem?_map, List.getElem?_range hi]
  · rw [wireBits_cons]
    simp only [List.getElem?_cons_succ]
    rw [List.getElem?_append_right (by simp)]
    simp
  · rw [wireBits_cons]
    simp only [List.getElem?_cons_succ]
    rw [List.getElem?_append_right (by simp)]
    simp

/-! ## The split layout of the segment frame -/

theorem toChar_id (x : Int) (h1 : -128 ≤ x) (h2 : x ≤ 127) : toChar x = x := by
  unfold toChar
  omega

theorem charMask_lt (font : Int → Nat) (lastChar c : Int) :
    charMask font lastChar c < 2 ^ 16 := by
  unfold charMask charMaskLogged
  dsimp only
  generalize (if c ≥ 97 ∧ c ≤ 122 then toChar (c - 32) else c) = c'
  by_cases h : c' < 0 ∨ c' > lastChar
  · rw [if_pos h]
    show 0 < 2 ^ 16
    decide
  · rw [if_neg h]
    show font c' % 2 ^ 16 < 2 ^ 16
    exact Nat.mod_lt _ (by decide)

theorem and_ff (b : Nat) : b &&& 0xff = b % 2 ^ 8 := by
  have h : (0xff : Nat) = 2 ^ 8 - 1 := by decide
  rw [h, Nat.and_pow_two_sub_one_eq_mod]

theorem and_ffff (b : Nat) : b &&& 0xffff = b % 2 ^ 16 := by
  have h : (0xffff : Nat) = 2 ^ 16 - 1 := by decide
  rw [h, Nat.and_pow_two_sub_one_eq_mod]

theorem and_ff00 (b : Nat) (hb : b < 2 ^ 16) : b &&& 0xff00 = 2 ^ 8 * (b / 2 ^ 8) := by
  have h : (0xff00 : Nat) = (2 ^ 8 - 1) <<< 8 := by decide
  rw [h]
  apply Nat.eq_of_testBit_eq
  intro i
  rw [Nat.mul_comm, ← Nat.shiftLeft_eq, ← Nat.shiftRight_eq_div_pow]
  simp only [Nat.testBit_and, Nat.testBit_shiftLeft, Nat.testBit_two_pow_sub_one,
    Nat.testBit_shiftRight]
  by_cases h8 : 8 ≤ i
  · have e : 8 + (i - 8) = i := by omega
    by_cases h16 : i < 16
    · have : i - 8 < 8 := by omega
      simp [h8, this, e]
    · have hf : b.testBit i = false := by
        apply Nat.testBit_lt_two_pow
        calc b < 2 ^ 16 := hb
          _ ≤ 2 ^ i := Nat.pow_le_pow_right (by decide) (by omega)
      simp [hf, e]
  · simp [h8]

theorem and_mul_two_pow (k x y : Nat) (hx : x < 2 ^ k) : x &&& (2 ^ k * y) = 0 := by
  apply Nat.eq_of_testBit_eq
  intro i
  rw [Nat.mul_comm, ← Nat.shiftLeft_eq]
  simp only [Nat.testBit_and, Nat.testBit_shiftLeft, Nat.zero_testBit]
  by_cases hk : k ≤ i
  · have hf : x.testBit i = false := by
      apply Nat.testBit_lt_two_pow
      calc x < 2 ^ k := hx
        _ ≤ 2 ^ i := Nat.pow_le_pow_right (by decide) hk
    simp [hf]
  · simp [hk]

theorem lframe_eq (font : Int → Nat) (lastChar l : Int) :
    lframe font lastChar l = 2 ^ 8 * charMask font lastChar l := by
  have ha := charMask_lt font lastChar l
  unfold lframe
  rw [Nat.shiftLeft_eq]
  omega

theorem rframe_low_eq (font : Int → Nat) (lastChar r : Int) :
    rframe_low font lastChar r = charMask font lastChar r % 2 ^ 8 := by
  unfold rframe_low
  exact and_ff _

theorem rframe_high_eq (font : Int → Nat) (lastChar r : Int) :
    rframe_high font lastChar r = 2 ^ 24 * (charMask font lastChar r / 2 ^ 8) := by
  have hb := charMask_lt font lastChar r
  unfold rframe_high
  rw [and_ff00 _ hb, Nat.shiftLeft_eq]
  omega

theorem writeCharsFrame_eq (font : Int → Nat) (lastChar l r : Int) :
    writeCharsFrame font lastChar l r =
      2 ^ 24 * (charMask font lastChar r / 2 ^ 8) +
        (2 ^ 8 * charMask font lastChar l + charMask font lastChar r % 2 ^ 8) := by
  have ha := charMask_lt font lastChar l
  have hb := charMask_lt font lastChar r
  unfold writeCharsFrame
  rw [lframe_eq, rframe_low_eq, rframe_high_eq]
  have h3 : charMask font lastChar r % 2 ^ 8 < 2 ^ 8 := Nat.mod_lt _ (by decide)
  rw [Nat.or_comm (charMask font lastChar r % 2 ^ 8),
    ← Nat.mul_add_lt_is_or h3 (charMask font lastChar l)]
  have h4 : 2 ^ 8 * charMask font lastChar l + charMask font lastChar r % 2 ^ 8 < 2 ^ 24 := by
    omega
  rw [Nat.or_comm, ← Nat.mul_add_lt_is_or h4]

/-- Claim C2: the frame `writeChars` hands to `writeMask` (it is
`writeCharsFrame l r`) round-trips.  Bits
8..23 of the frame are `charMask` of the left character, the value rebuilt
from bits 0..7 and bits 24..31 is `charMask` of the right character, and the
three pieces that are or-ed together lie in the disjoint bit ranges 0..7,
8..23 and 24..31, so no two of them share a bit. -/
theorem writeCharsFrame_round_trip (font : Int → Nat) (lastChar l r : Int) :
    (∀ (st : Engine) (screen : Int), writeChars font lastChar st screen l r =
        writeMask st screen (writeCharsFrame font lastChar l r)) ∧
      (writeCharsFrame font lastChar l r >>> 8) &&& 0xFFFF = charMask font lastChar l ∧
      (writeCharsFrame font lastChar l r &&& 0xFF) |||
          ((writeCharsFrame font lastChar l r >>> 16) &&& 0xFF00) =
        charMask font lastChar r ∧
      rframe_low font lastChar r < 2 ^ 8 ∧
      (lframe font lastChar l % 2 ^ 8 = 0 ∧ lframe font lastChar l < 2 ^ 24) ∧
      (rframe_high font lastChar r % 2 ^ 24 = 0 ∧ rframe_high font lastChar r < 2 ^ 32) ∧
      rframe_low font lastChar r &&& lframe font lastChar l = 0 ∧
      rframe_low font lastChar r &&& rframe_high font lastChar r = 0 ∧
      lframe font lastChar l &&& rframe_high font lastChar r = 0 := by
  have ha := charMask_lt font lastChar l
  have hb := charMask_lt font lastChar r
  have hlow : rframe_low font lastChar r < 2 ^ 8 := by
    rw [rframe_low_eq]; exact Nat.mod_lt _ (by decide)
  have hl : lframe font lastChar l < 2 ^ 24 := by
    rw [lframe_eq]; omega
  refine ⟨fun _ _ => rfl, ?_, ?_, hlow, ⟨?_, hl⟩, ⟨?_, ?_⟩, ?_, ?_, ?_⟩
  · rw [writeCharsFrame_eq, and_ffff, Nat.shiftRight_eq_div_pow]
    omega
  · rw [writeCharsFrame_eq]
    generalize charMask font lastChar l = a at ha
    generalize charMask font lastChar r = b at hb
    have hG : (2 ^ 24 * (b / 2 ^ 8) + (2 ^ 8 * a + b % 2 ^ 8)) >>> 16 < 2 ^ 16 := by
      rw [Nat.shiftRight_eq_div_pow]; omega
    rw [and_ff, and_ff00 _ hG, Nat.shiftRight_eq_div_pow]
    have h3 : (2 ^ 24 * (b / 2 ^ 8) + (2 ^ 8 * a + b % 2 ^ 8)) % 2 ^ 8 < 2 ^ 8 :=
      Nat.mod_lt _ (by decide)
    rw [Nat.or_comm, ← Nat.mul_add_lt_is_or h3]
    omega
  · rw [lframe_eq]; omega
  · rw [rframe_high_eq]; omega
  · rw [rframe_high_eq]; omega
  · rw [lframe_eq]; exact and_mul_two_pow 8 _ _ hlow
  · rw [rframe_high_eq]
    exact and_mul_two_pow 24 _ _ (by omega)
  · rw [rframe_high_eq]
    exact and_mul_two_pow 24 _ _ hl

/-! ## Case folding and the blank fallback of `charMask` -/

/-- Claim C3: for every lower-case letter `c` (`'a' = 97` to `'z' = 122`),
every font table and every `lastChar`, `charMask c` equals `charMask` of the
upper-case letter `c - 32`. -/
theorem charMask_lower_eq_upper (font : Int → Nat) (lastChar c : Int)
    (h1 : 97 ≤ c) (h2 : c ≤ 122) :
    charMask font lastChar c = charMask font lastChar (c - 32) := by
  have ht : toChar (c - 32) = c - 32 := toChar_id _ (by omega) (by omega)
  have hn : ¬ (c - 32 ≥ 97 ∧ c - 32 ≤ 122) := by omega
  simp only [charMask, charMaskLogged, ht, hn, h1, h2, ge_iff_le, and_self, if_true,
    if_false]

theorem charMask_lower_eq_upper_witness :
    (97 : Int) ≤ 104 ∧ (104 : Int) ≤ 122 ∧
      charMask demoFont 95 104 = charMask demoFont 95 (104 - 32) :=
  ⟨by decide, by decide, charMask_lower_eq_upper demoFont 95 104 (by decide) (by decide)⟩

/-- Claim C4 as stated fails: with `lastChar = 95` (`'_'`) the character
`'a' = 97` is above `lastChar`, yet `charMask` folds it to `'A' = 65`, reads
`font[65]` and returns that entry, which is not zero. -/
theorem charMask_above_lastChar_not_blank :
    ((97 : Int) < 0 ∨ (97 : Int) > 95) ∧
      charMask demoFont 95 97 = 0x4141 ∧
      charMaskReads demoFont 95 97 = [65] := by
  refine ⟨Or.inr (by decide), ?_, ?_⟩
  · simp [charMask, charMaskLogged, toChar, demoFont]
  · simp [charMaskReads, charMaskLogged, toChar]

/-- Claim C4, amended: the range test applies to the case-folded character.
For every character `c`, with `c'` the character
after folding (`c - 32` for a lower-case letter, `c` otherwise): if `c' < 0`
or `c' > lastChar` then `charMask c` is 0 and the font table is not read.
In particular this holds for every negative `c` and for every `c` above
`lastChar` that is not a lower-case letter. -/
theorem charMask_blank_outside_range (font : Int → Nat) (lastChar c : Int)
    (h : (if 97 ≤ c ∧ c ≤ 122 then c - 32 else c) < 0 ∨
         (if 97 ≤ c ∧ c ≤ 122 then c - 32 else c) > lastChar) :
    charMask font lastChar c = 0 ∧ charMaskReads font lastChar c = [] := by
  unfold charMask charMaskReads charMaskLogged
  dsimp only
  by_cases hl : 97 ≤ c ∧ c ≤ 122
  · have ht : toChar (c - 32) = c - 32 := toChar_id _ (by omega) (by omega)
    have hl' : c ≥ 97 ∧ c ≤ 122 := hl
    rw [if_pos hl] at h
    rw [if_pos hl', ht, if_pos h]
    exact ⟨rfl, rfl⟩
  · have hl' : ¬ (c ≥ 97 ∧ c ≤ 122) := hl
    rw [if_neg hl] at h
    rw [if_neg hl', if_pos h]
    exact ⟨rfl, rfl⟩

theorem charMask_blank_outside_range_witness :
    charMask demoFont 95 126 = 0 ∧ charMaskReads demoFont 95 126 = [] :=
  charMask_blank_outside_range demoFont 95 126 (Or.inr (by decide))

/-! ## The registry -/

/-- Claim C5: when the registry already holds `maxNumScreens` chains,
`addScreen` returns the engine unchanged (`numScreens` and both pin arrays)
with an empty trace: no `pinMode` and no `digitalWrite` call is made. -/
theorem addScreen_at_capacity (maxNumScreens : Int) (st : Engine) (dataPin clockPin : Int)
    (h : st.numScreens = maxNumScreens) :
    addScreen maxNumScreens st dataPin clockPin = some (st, []) := by
  simp [addScreen, h]

theorem addScreen_at_capacity_witness :
    addScreen 2 demoEngine 6 7 = some (demoEngine, []) :=
  addScreen_at_capacity 2 demoEngine 6 7 rfl

theorem writeChars_engine (font : Int → Nat) (lastChar : Int) (st : Engine)
    (screen lchar rchar : Int) :
    (writeChars font lastChar st screen lchar rchar).1 = st := by
  simp [writeChars, writeMask_eq]

theorem perform_engine (font : Int → Nat) (lastChar : Int) (st : Engine) (c : Call) :
    (perform font lastChar st c).1 = st := by
  cases c with
  | writeChars screen lchar rchar => exact writeChars_engine font lastChar st screen lchar rchar
  | delay ms => rfl

theorem performAll_engine (font : Int → Nat) (lastChar : Int) (st : Engine)
    (calls : List Call) : (performAll font lastChar st calls).1 = st := by
  induction calls with
  | nil => rfl
  | cons c cs ih => simp only [performAll, perform_engine, ih]

theorem scroll_engine (font : Int → Nat) (lastChar : Int) (st st' : Engine)
    (msg : List Int) (delay_ms : Int) (fuel : Nat) (tr : List Event)
    (h : scroll font lastChar st msg delay_ms fuel = .ok (st', tr)) : st' = st := by
  unfold scroll at h
  cases hc : scrollCalls st.numScreens msg delay_ms fuel with
  | error e => rw [hc] at h; cases h
  | ok calls =>
    rw [hc] at h
    have h2 : performAll font lastChar st calls = (st', tr) := by
      simpa [bind, Except.bind, pure, Except.pure] using h
    have h3 := performAll_engine font lastChar st calls
    rw [h2] at h3
    exact h3

theorem digitTest_engine (font : Int → Nat) (lastChar : Int) (st st' : Engine)
    (screen startAt : Int) (fuel : Nat) (tr : List Event)
    (h : digitTest font lastChar st screen startAt fuel = .ok (st', tr)) : st' = st := by
  unfold digitTest at h
  cases hc : digitTestCalls lastChar screen startAt fuel with
  | error e => rw [hc] at h; cases h
  | ok calls =>
    rw [hc] at h
    have h2 : performAll font lastChar st calls = (st', tr) := by
      simpa [bind, Except.bind, pure, Except.pure] using h
    have h3 := performAll_engine font lastChar st calls
    rw [h2] at h3
    exact h3

theorem exec_numScreens (maxNumScreens : Int) (font : Int → Nat) (lastChar : Int)
    (st st' : Engine) (fuel : Nat) (op : Op) (tr : List Event)
    (hinv : 0 ≤ st.numScreens ∧ st.numScreens ≤ maxNumScreens)
    (h : Op.exec maxNumScreens font lastChar st fuel op = .ok (st', tr)) :
    0 ≤ st'.numScreens ∧ st'.numScreens ≤ maxNumScreens := by
  cases op with
  | addScreen dataPin clockPin =>
    simp only [Op.exec, addScreen] at h
    by_cases h1 : st.numScreens = maxNumScreens
    · rw [if_pos h1] at h
      simp only [Except.ok.injEq, Prod.mk.injEq] at h
      rw [← h.1]
      exact hinv
    · rw [if_neg h1] at h
      have h2 : 0 ≤ st.numScreens ∧ st.numScreens < maxNumScreens := by omega
      rw [if_pos h2] at h
      simp only [Except.ok.injEq, Prod.mk.injEq] at h
      rw [← h.1]
      show 0 ≤ st.numScreens + 1 ∧ st.numScreens + 1 ≤ maxNumScreens
      omega
  | writeChars screen lchar rchar =>
    simp only [Op.exec, Except.ok.injEq] at h
    have h3 := writeChars_engine font lastChar st screen lchar rchar
    rw [h] at h3
    simp only at h3
    rw [h3]
    exact hinv
  | scroll msg delay_ms =>
    rw [scroll_engine font lastChar st st' msg delay_ms fuel tr h]
    exact hinv
  | digitTest screen startAt =>
    rw [digitTest_engine font lastChar st st' screen startAt fuel tr h]
    exact hinv

/-- Claim C6: registry bound.  With `maxNumScreens` the (non-negative) size of
the pin arrays, every engine reached from a freshly constructed one by any
finite sequence of `addScreen`, `writeChars`, `scroll` and `digitTest` calls
with any arguments has `0 ≤ numScreens ≤ maxNumScreens`, and `addScreen` on
it never stores outside the arrays (its result is never the out-of-bounds
outcome `none`). -/
theorem reachable_numScreens_bounded (maxNumScreens : Int) (font : Int → Nat)
    (lastChar : Int) (hmax : 0 ≤ maxNumScreens) (st : Engine)
    (h : Reachable maxNumScreens font lastChar st) :
    (0 ≤ st.numScreens ∧ st.numScreens ≤ maxNumScreens) ∧
      ∀ dataPin clockPin : Int, addScreen maxNumScreens st dataPin clockPin ≠ none := by
  have hinv : 0 ≤ st.numScreens ∧ st.numScreens ≤ maxNumScreens := by
    induction h with
    | fresh dataPins0 clockPins0 => exact ⟨le_refl _, hmax⟩
    | step st st' op fuel tr _ hexec ih =>
      exact exec_numScreens maxNumScreens font lastChar st st' fuel op tr ih hexec
  refine ⟨hinv, ?_⟩
  intro dataPin clockPin
  simp only [addScreen]
  by_cases h1 : st.numScreens = maxNumScreens
  · rw [if_pos h1]
    exact Option.some_ne_none _
  · have h2 : 0 ≤ st.numScreens ∧ st.numScreens < maxNumScreens := by omega
    rw [if_neg h1, if_pos h2]
    exact Option.some_ne_none _

theorem reachable_numScreens_bounded_witness :
    (0 ≤ demoOne.numScreens ∧ demoOne.numScreens ≤ 2) ∧
      ∀ dataPin clockPin : Int, addScreen 2 demoOne dataPin clockPin ≠ none :=
  reachable_numScreens_bounded 2 demoFont 95 (by decide) demoOne
    (Reachable.step (new (fun _ => 0) (fun _ => 0)) demoOne (Op.addScreen 2 3) 0
      [Event.pinMode 2, Event.pinMode 3, Event.digitalWrite 2 false,
        Event.digitalWrite 3 false]
      (Reachable.fresh _ _) rfl)

/-! ## The marquee -/

/-- Claim C7: for every engine (any number of registered chains) and every
delay value, `scroll` on the empty message returns at once: it makes no
`writeChars` call and no `delay` call, its pin trace is empty, and the
engine is returned unchanged.  No step budget is needed. -/
theorem scroll_empty_message (font : Int → Nat) (lastChar : Int) (st : Engine)
    (delay_ms : Int) (fuel : Nat) :
    scrollCalls st.numScreens [] delay_ms fuel = .ok [] ∧
      scroll font lastChar st [] delay_ms fuel = .ok (st, []) := by
  have h : scrollCalls st.numScreens [] delay_ms fuel = .ok [] := by
    simp [scrollCalls, deref, bind, Except.bind, pure, Except.pure]
  refine ⟨h, ?_⟩
  simp [scroll, h, bind, Except.bind, pure, Except.pure, performAll]

theorem paddedChar_neg (msg : List Int) (i : Int) (h : i < 0) : paddedChar msg i = 32 := by
  simp [paddedChar, h]

theorem paddedChar_past (msg : List Int) (i : Int) (h : (msg.length : Int) < i) :
    paddedChar msg i = 32 := by
  have h0 : ¬ i < 0 := by omega
  have h1 : msg[i.toNat]? = none := by
    apply List.getElem?_eq_none
    omega
  have h2 : ¬ i = msg.length := by omega
  simp [paddedChar, h0, h1, h2]

theorem paddedChar_null (msg : List Int) : paddedChar msg msg.length = 0 := by
  have h0 : ¬ ((msg.length : Int) < 0) := by omega
  have h1 : msg[(msg.length : Int).toNat]? = none := by
    apply List.getElem?_eq_none
    simp
  simp only [paddedChar, h0, h1, if_false, if_true]

theorem paddedChar_inside (msg : List Int) (i : Nat) (h : i < msg.length) :
    msg[i]? = some (paddedChar msg i) := by
  have h0 : ¬ ((i : Int) < 0) := by omega
  have h1 : msg[((i : Nat) : Int).toNat]? = some (msg[i]) := by
    simp [List.getElem?_eq_getElem h]
  simp only [paddedChar, h0, h1, if_false]
  exact List.getElem?_eq_getElem h

theorem paddedChar_inside_ne_zero (msg : List Int) (hz : ∀ c ∈ msg, c ≠ 0) (i : Nat)
    (h : i < msg.length) : paddedChar msg i ≠ 0 := by
  have h1 := paddedChar_inside msg i h
  exact hz _ (List.getElem?_mem h1)

theorem deref_eq_paddedChar (msg : List Int) (i : Int) (h0 : 0 ≤ i)
    (h1 : i ≤ msg.length) : deref msg i = .ok (paddedChar msg i) := by
  have hn : ¬ i < 0 := by omega
  unfold deref paddedChar
  rw [if_neg hn, if_neg hn]
  cases hg : msg[i.toNat]? with
  | some c => rfl
  | none =>
    have h2 : msg.length ≤ i.toNat := List.getElem?_eq_none_iff.mp hg
    have h3 : i = msg.length := by omega
    simp [h3]

theorem digitChar_cursorAt (msg : List Int) (n k : Nat) (d : Int)
    (hd0 : 0 ≤ d) (hd1 : d < 2 * n) :
    digitChar msg ((n : Int) * 2) ((n : Int) * 2 - 1) (cursorAt n msg.length k) d =
      .ok (paddedChar msg (d + k - 2 * n)) := by
  have hn : n ≠ 0 := by omega
  simp only [digitChar, cursorAt, hn, if_false]
  by_cases hi : d + k - 2 * n < 0
  · rw [paddedChar_neg _ _ hi, if_pos]
    split_ifs <;> omega
  · rw [if_neg (by split_ifs <;> omega)]
    by_cases hp : (msg.length : Int) < d + k - 2 * n
    · rw [paddedChar_past _ _ hp, if_pos]
      split_ifs <;> omega
    · rw [if_neg (by split_ifs <;> omega)]
      have hidx : ((if (k : Int) - 1 ≤ msg.length then (k : Int) - 1 else msg.length) -
            ((n : Int) * 2 - 1 - d) +
          ((n : Int) * 2 -
            (if (k : Int) ≤ msg.length + 1 then 2 * (n : Int)
              else 2 * (n : Int) + msg.length + 1 - k))) = d + k - 2 * n := by
        split_ifs <;> omega
      rw [hidx]
      exact deref_eq_paddedChar msg _ (by omega) (by omega)

theorem scrollScreens_cursorAt (msg : List Int) (n k : Nat) :
    ∀ m : Nat, m ≤ n →
      scrollScreens msg ((n : Int) * 2) ((n : Int) * 2 - 1) (cursorAt n msg.length k) m =
        .ok ((List.range m).reverse.map (fun (s : Nat) =>
          Call.writeChars (s : Int) (paddedChar msg (2 * (s : Int) + k - 2 * n))
            (paddedChar msg (2 * (s : Int) + 1 + k - 2 * n)))) := by
  intro m
  induction m with
  | zero => intro _; rfl
  | succ m ih =>
    intro hm
    have h1 := digitChar_cursorAt msg n k ((m : Int) * 2 + 1) (by omega) (by omega)
    have h2 := digitChar_cursorAt msg n k ((m : Int) * 2) (by omega) (by omega)
    have e1 : (m : Int) * 2 + 1 + k - 2 * n = 2 * (m : Int) + 1 + k - 2 * n := by omega
    have e2 : (m : Int) * 2 + k - 2 * n = 2 * (m : Int) + k - 2 * n := by omega
    rw [e1] at h1
    rw [e2] at h2
    simp only [scrollScreens, h1, h2, ih (by omega), bind, Except.bind, pure, Except.pure,
      List.range_succ, List.reverse_append, List.reverse_cons, List.reverse_nil,
      List.nil_append, List.singleton_append, List.map_cons]

theorem frameCalls_closedFrame (msg : List Int) (delay_ms : Int) (n k : Nat) :
    frameCalls delay_ms (closedFrame msg n k) =
      (List.range n).reverse.map (fun (s : Nat) =>
          Call.writeChars (s : Int) (paddedChar msg (2 * (s : Int) + k - 2 * n))
            (paddedChar msg (2 * (s : Int) + 1 + k - 2 * n))) ++ [Call.delay delay_ms] := by
  simp [frameCalls, closedFrame, List.map_map, Function.comp_def]

theorem scrollAdvance_cursorAt (msg : List Int) (hz : ∀ c ∈ msg, c ≠ 0) (n k : Nat)
    (hn : n ≤ 63) (hk1 : 1 ≤ k) (hk2 : k ≤ msg.length + 2 * n + 1) :
    scrollAdvance msg (cursorAt n msg.length k) = .ok (cursorAt n msg.length (k + 1)) := by
  by_cases hex : msg.length + 1 ≤ k
  · have he : ((msg.length : Int) ≤ (k : Int) - 1) := by omega
    simp only [scrollAdvance, cursorAt, he, decide_True, if_true, pure, Except.pure,
      Except.ok.injEq, Cursor.mk.injEq, toChar, Nat.cast_add, Nat.cast_one]
    refine ⟨?_, ?_, ?_, ?_⟩
    · split_ifs <;> omega
    · symm
      exact decide_eq_true (by omega)
    · split_ifs <;> omega
    · split_ifs <;> omega
  · have he : ¬ ((msg.length : Int) ≤ (k : Int) - 1) := by omega
    have hf : (if (k : Int) - 1 ≤ msg.length then (k : Int) - 1 else msg.length) + 1 =
        ((k : Nat) : Int) := by
      split_ifs <;> omega
    have hd : deref msg ((k : Nat) : Int) = .ok (paddedChar msg (k : Nat)) :=
      deref_eq_paddedChar msg _ (by omega) (by omega)
    simp only [scrollAdvance, cursorAt, he, decide_False, if_false, hf, hd, bind, Except.bind,
      pure, Except.pure, Except.ok.injEq, Cursor.mk.injEq, toChar, Nat.cast_add,
      Nat.cast_one, Bool.false_eq_true]
    refine ⟨?_, ?_, ?_, ?_⟩
    · split_ifs <;> omega
    · by_cases hk : k = msg.length
      · rw [hk, paddedChar_null]
        simp
      · have hne := paddedChar_inside_ne_zero msg hz k (by omega)
        have h1 : ¬ (msg.length ≤ k) := by omega
        simp [hne, h1]
    · split_ifs <;> omega
    · split_ifs <;> omega

theorem scrollLoop_cursorAt (msg : List Int) (hz : ∀ c ∈ msg, c ≠ 0) (n : Nat)
    (hn : n ≤ 63) (delay_ms : Int) :
    ∀ (r k fuel : Nat), 1 ≤ k → k + r = msg.length + 2 * n + 2 → r < fuel →
      scrollLoop msg (n : Int) delay_ms fuel (cursorAt n msg.length k) =
        .ok ((List.range' k r).flatMap
          (fun j => frameCalls delay_ms (closedFrame msg n j))) := by
  intro r
  induction r with
  | zero =>
    intro k fuel _ hk hf
    obtain ⟨f, rfl⟩ : ∃ f, fuel = f + 1 := ⟨fuel - 1, by omega⟩
    have hl : ¬ (cursorAt n msg.length k).lowestDigitPadded ≥ 0 := by
      simp only [cursorAt]
      split_ifs <;> omega
    simp only [scrollLoop, if_neg hl]
    rfl
  | succ r ih =>
    intro k fuel hk1 hk hf
    obtain ⟨f, rfl⟩ : ∃ f, fuel = f + 1 := ⟨fuel - 1, by omega⟩
    have hl : (cursorAt n msg.length k).lowestDigitPadded ≥ 0 := by
      simp only [cursorAt]
      split_ifs <;> omega
    have hs := scrollScreens_cursorAt msg n k n (le_refl n)
    have ha := scrollAdvance_cursorAt msg hz n k hn hk1 (by omega)
    have hr := ih (k + 1) f (by omega) (by omega) (by omega)
    simp only [scrollLoop, if_pos hl, Int.toNat_ofNat, hs, ha, hr, bind, Except.bind, pure,
      Except.pure, List.range'_succ, List.flatMap_cons, frameCalls_closedFrame,
      List.append_assoc, List.singleton_append]

theorem scrollCalls_closed_form (msg : List Int) (hne : msg ≠ []) (hz : ∀ c ∈ msg, c ≠ 0)
    (n : Nat) (hn : n ≤ 63) (delay_ms : Int) (fuel : Nat)
    (hf : msg.length + 2 * n + 1 < fuel) :
    scrollCalls (n : Int) msg delay_ms fuel =
      .ok ((List.range' 1 (msg.length + 2 * n + 1)).flatMap
        (fun j => frameCalls delay_ms (closedFrame msg n j))) := by
  have hlen : 0 < msg.length := List.length_pos.mpr hne
  have hd : deref msg 0 = .ok (paddedChar msg ((0 : Nat) : Int)) :=
    deref_eq_paddedChar msg _ (by omega) (by omega)
  have h0 := paddedChar_inside_ne_zero msg hz 0 hlen
  have hc : ({ farRight := 0, stringExhausted := false,
               highestDigitPadded := toChar ((n : Int) * 2 - 1 - 1),
               lowestDigitPadded := toChar ((n : Int) * 2 - 1 + 1) } : Cursor) =
      cursorAt n msg.length 1 := by
    have he : ¬ ((msg.length : Int) ≤ ((1 : Nat) : Int) - 1) := by
      simp only [Nat.cast_one]
      omega
    simp only [cursorAt, toChar, Cursor.mk.injEq, he, decide_False, Nat.cast_one]
    refine ⟨?_, ?_, ?_, ?_⟩
    · split_ifs <;> omega
    · symm
      exact decide_eq_false (by omega)
    · split_ifs <;> omega
    · split_ifs <;> omega
  have hloop := scrollLoop_cursorAt msg hz n hn delay_ms (msg.length + 2 * n + 1) 1 fuel
    (le_refl 1) (by omega) hf
  simp only [scrollCalls, hd, bind, Except.bind, if_neg h0, hc, hloop]

theorem length_closedFrame (msg : List Int) (n k : Nat) :
    (closedFrame msg n k).length = n := by
  simp [closedFrame]

theorem find_in_descending (f : Nat → Int × Int × Int) (hf : ∀ j, (f j).1 = (j : Int))
    (s : Nat) : ∀ m : Nat, s < m →
      ((List.range m).reverse.map f).find? (fun w => w.1 = (s : Int)) = some (f s) := by
  intro m
  induction m with
  | zero => intro h; omega
  | succ m ih =>
    intro h
    simp only [List.range_succ, List.reverse_append, List.reverse_cons, List.reverse_nil,
      List.nil_append, List.singleton_append, List.map_cons, List.find?_cons, hf]
    by_cases hm : m = s
    · simp [hm]
    · have h1 : ¬ ((m : Int) = (s : Int)) := by omega
      simp only [h1, decide_False]
      exact ih (by omega)

theorem closedFrame_find (msg : List Int) (n k s : Nat) (hs : s < n) :
    (closedFrame msg n k).find? (fun w => w.1 = (s : Int)) =
      some ((s : Int), paddedChar msg (2 * (s : Int) + k - 2 * n),
        paddedChar msg (2 * (s : Int) + 1 + k - 2 * n)) := by
  unfold closedFrame
  exact find_in_descending _ (fun _ => rfl) s n hs

theorem flatMap_closedFrames (msg : List Int) (n : Nat) (delay_ms : Int) :
    (closedFrames msg n).flatMap (frameCalls delay_ms) =
      (List.range' 1 (msg.length + 2 * n + 1)).flatMap
        (fun j => frameCalls delay_ms (closedFrame msg n j)) := by
  simp [closedFrames, List.flatMap, List.map_map, Function.comp_def]

theorem length_closedFrames (msg : List Int) (n : Nat) :
    (closedFrames msg n).length = msg.length + 2 * n + 1 := by
  simp [closedFrames]

theorem shownAt_closedFrames (msg : List Int) (n k d : Nat) (hk1 : 1 ≤ k)
    (hk2 : k ≤ msg.length + 2 * n + 1) (hd : d < 2 * n) :
    shownAt (closedFrames msg n) k d = some (paddedChar msg ((d : Int) + k - 2 * n)) := by
  have hg : (closedFrames msg n)[k - 1]? = some (closedFrame msg n k) := by
    unfold closedFrames
    rw [List.getElem?_map, List.getElem?_range' _ _ (by omega)]
    simp only [Option.map_some', Nat.one_mul]
    congr 2
    omega
  have hs : d / 2 < n := by omega
  simp only [shownAt, hg, closedFrame_find msg n k (d / 2) hs]
  by_cases he : d % 2 = 0
  · simp only [he, if_true]
    congr 2
    omega
  · simp only [he, if_false]
    congr 2
    omega

/-- Claim C8: for an engine with `n` registered chains, `2n + 1 ≤ 127`, and a
non-empty message of length `L` (its characters, none of them null, before
the terminating null), `scroll` returns, given any step budget above
`L + 2n + 1`, after exactly `L + 2n + 1` animation frames: its calls are the
concatenation of `L + 2n + 1` frames, each made of `n` `writeChars` calls
followed by one `delay(delay_ms)`; the engine is returned unchanged and the
pin trace is the trace of those calls. -/
theorem scroll_frame_count (font : Int → Nat) (lastChar : Int) (st : Engine) (n : Nat)
    (hst : st.numScreens = (n : Int)) (h127 : 2 * n + 1 ≤ 127)
    (msg : List Int) (hne : msg ≠ []) (hz : ∀ c ∈ msg, c ≠ 0)
    (delay_ms : Int) (fuel : Nat) (hf : msg.length + 2 * n + 1 < fuel) :
    ∃ frames : List (List (Int × Int × Int)),
      frames.length = msg.length + 2 * n + 1 ∧
      (∀ frame ∈ frames, frame.length = n) ∧
      scrollCalls st.numScreens msg delay_ms fuel =
        .ok (frames.flatMap (frameCalls delay_ms)) ∧
      scroll font lastChar st msg delay_ms fuel =
        .ok (st, (performAll font lastChar st (frames.flatMap (frameCalls delay_ms))).2) := by
  have hc := scrollCalls_closed_form msg hne hz n (by omega) delay_ms fuel hf
  rw [← flatMap_closedFrames] at hc
  refine ⟨closedFrames msg n, length_closedFrames msg n, ?_, ?_, ?_⟩
  · intro frame hmem
    simp only [closedFrames, List.mem_map] at hmem
    obtain ⟨k, _, rfl⟩ := hmem
    exact length_closedFrame msg n k
  · rw [hst]
    exact hc
  · have he := performAll_engine font lastChar st
      ((closedFrames msg n).flatMap (frameCalls delay_ms))
    simp only [scroll, hst, hc, bind, Except.bind, pure, Except.pure, Except.ok.injEq]
    exact Prod.ext he rfl

theorem scroll_frame_count_witness :
    ∃ frames : List (List (Int × Int × Int)),
      frames.length = 5 ∧
      (∀ frame ∈ frames, frame.length = 1) ∧
      scrollCalls demoOne.numScreens [72, 73] 0 6 = .ok (frames.flatMap (frameCalls 0)) ∧
      scroll demoFont 95 demoOne [72, 73] 0 6 =
        .ok (demoOne, (performAll demoFont 95 demoOne (frames.flatMap (frameCalls 0))).2) :=
  scroll_frame_count demoFont 95 demoOne 1 rfl (by decide) [72, 73] (by decide)
    (by decide) 0 6 (by decide)

/-- Claim C9 as stated fails for 64 or more chains: `lastDigit + 1 = 128` does
not fit the signed 8-bit `lowestDigitPadded`, which becomes `-128`, so the
`while` loop is never entered.  With 64 chains and the message `"A"`,
`scroll` makes no call at all; frame 1 does not exist, and digit 127
(offset `i = 0`) is never written with `'A'`. -/
theorem scroll_sixty_four_chains_no_frame :
    scrollCalls 64 [65] 0 200 = .ok [] ∧
      ∀ frames : List (List (Int × Int × Int)),
        frames.flatMap (frameCalls 0) = [] → shownAt frames 1 127 = none := by
  refine ⟨rfl, ?_⟩
  intro frames h
  cases frames with
  | nil => rfl
  | cons f fs => simp [frameCalls] at h

/-- Claim C9, amended with the bound `n ≤ 63` on the number of chains: for
`1 ≤ n ≤ 63` chains and a non-empty message `msg` of length `L`, `scroll`
makes `L + 2n + 1` frames, and for every frame number `k` in `1..L+2n+1` and
every digit `d` in `0..2n-1`, with `i = d + k - 2n`: the character passed to
`writeChars` for digit `d` in frame `k` is the blank `' '` when `i < 0` or
`i > L`, and is `msg[i]` when `0 ≤ i < L`.  (A digit `d < 2n` exists only when
`n ≥ 1`.) -/
theorem marquee_closed_form (n : Nat) (hn : n ≤ 63)
    (msg : List Int) (hne : msg ≠ []) (hz : ∀ c ∈ msg, c ≠ 0)
    (delay_ms : Int) (fuel : Nat) (hf : msg.length + 2 * n + 1 < fuel) :
    ∃ frames : List (List (Int × Int × Int)),
      scrollCalls (n : Int) msg delay_ms fuel = .ok (frames.flatMap (frameCalls delay_ms)) ∧
      frames.length = msg.length + 2 * n + 1 ∧
      ∀ k d : Nat, 1 ≤ k → k ≤ msg.length + 2 * n + 1 → d < 2 * n →
        (((d : Int) + k - 2 * n < 0 ∨ (d : Int) + k - 2 * n > msg.length) →
          shownAt frames k d = some 32) ∧
        (∀ i : Nat, (i : Int) = (d : Int) + k - 2 * n → i < msg.length →
          shownAt frames k d = msg[i]?) := by
  have hc := scrollCalls_closed_form msg hne hz n hn delay_ms fuel hf
  rw [← flatMap_closedFrames] at hc
  refine ⟨closedFrames msg n, hc, length_closedFrames msg n, ?_⟩
  intro k d hk1 hk2 hd
  rw [shownAt_closedFrames msg n k d hk1 hk2 hd]
  constructor
  · intro hi
    cases hi with
    | inl h => rw [paddedChar_neg _ _ h]
    | inr h => rw [paddedChar_past _ _ h]
  · intro i hi hlt
    rw [← hi]
    exact (paddedChar_inside msg i hlt).symm

theorem marquee_closed_form_witness :
    (∃ frames : List (List (Int × Int × Int)),
      scrollCalls ((1 : Nat) : Int) [72, 73] 0 6 = .ok (frames.flatMap (frameCalls 0)) ∧
      frames.length = 5 ∧
      ∀ k d : Nat, 1 ≤ k → k ≤ 5 → d < 2 →
        (((d : Int) + k - 2 * (1 : Nat) < 0 ∨
            (d : Int) + k - 2 * (1 : Nat) > ([72, 73] : List Int).length) →
          shownAt frames k d = some 32) ∧
        (∀ i : Nat, (i : Int) = (d : Int) + k - 2 * (1 : Nat) →
          i < ([72, 73] : List Int).length →
          shownAt frames k d = ([72, 73] : List Int)[i]?)) ∧
      scrollCalls 1 [72, 73] 0 6 =
        .ok [Call.writeChars 0 32 72, Call.delay 0, Call.writeChars 0 72 73, Call.delay 0,
             Call.writeChars 0 73 0, Call.delay 0, Call.writeChars 0 0 32, Call.delay 0,
             Call.writeChars 0 32 32, Call.delay 0] :=
  ⟨marquee_closed_form 1 (by decide) [72, 73] (by decide) (by decide) 0 6 (by decide), rfl⟩

/-- Claim C10 as stated fails for 64 or more chains (the signed 8-bit cursor
`lowestDigitPadded` wraps to `-128`): with 64 chains and the message `"HI"`,
`scroll` makes no call, so the first character is never shown at the
rightmost digit 127. -/
theorem scroll_sixty_four_chains_no_first_char :
    scrollCalls 64 [72, 73] 0 200 = .ok [] ∧
      ∀ frames : List (List (Int × Int × Int)),
        frames.flatMap (frameCalls 0) = [] → shownAt frames 1 (2 * 64 - 1) ≠ some 72 := by
  refine ⟨rfl, ?_⟩
  intro frames h
  cases frames with
  | nil => simp [shownAt]
  | cons f fs => simp [frameCalls] at h

/-- Claim C10, amended with the bound `n ≤ 63` on the number of chains: for
`1 ≤ n ≤ 63` chains and a non-empty message of length `L`, the first
character of the message is shown at the rightmost digit `2n - 1` in the
first frame, and for every frame `k` with `1 ≤ k < L + 2n + 1` and every
digit `d` with `0 ≤ d < 2n - 1`, the character shown at digit `d` in frame
`k + 1` is the character shown at digit `d + 1` in frame `k`. -/
theorem marquee_window_slide (n : Nat) (hn1 : 1 ≤ n) (hn : n ≤ 63)
    (msg : List Int) (hne : msg ≠ []) (hz : ∀ c ∈ msg, c ≠ 0)
    (delay_ms : Int) (fuel : Nat) (hf : msg.length + 2 * n + 1 < fuel) :
    ∃ frames : List (List (Int × Int × Int)),
      scrollCalls (n : Int) msg delay_ms fuel = .ok (frames.flatMap (frameCalls delay_ms)) ∧
      frames.length = msg.length + 2 * n + 1 ∧
      shownAt frames 1 (2 * n - 1) = msg[0]? ∧
      ∀ k d : Nat, 1 ≤ k → k < msg.length + 2 * n + 1 → d + 1 < 2 * n →
        ∃ c : Int, shownAt frames (k + 1) d = some c ∧ shownAt frames k (d + 1) = some c := by
  have hc := scrollCalls_closed_form msg hne hz n hn delay_ms fuel hf
  rw [← flatMap_closedFrames] at hc
  have hlen : 0 < msg.length := List.length_pos.mpr hne
  refine ⟨closedFrames msg n, hc, length_closedFrames msg n, ?_, ?_⟩
  · rw [shownAt_closedFrames msg n 1 (2 * n - 1) (le_refl 1) (by omega) (by omega)]
    have h0 : ((2 * n - 1 : Nat) : Int) + (1 : Nat) - 2 * n = ((0 : Nat) : Int) := by omega
    rw [h0]
    exact (paddedChar_inside msg 0 hlen).symm
  · intro k d hk1 hk2 hd
    refine ⟨paddedChar msg ((d : Int) + (k + 1 : Nat) - 2 * n), ?_, ?_⟩
    · exact shownAt_closedFrames msg n (k + 1) d (by omega) (by omega) (by omega)
    · rw [shownAt_closedFrames msg n k (d + 1) hk1 (by omega) hd]
      congr 2
      push_cast
      omega

theorem marquee_window_slide_witness :
    ∃ frames : List (List (Int × Int × Int)),
      scrollCalls ((2 : Nat) : Int) [72, 73, 33] 0 9 = .ok (frames.flatMap (frameCalls 0)) ∧
      frames.length = 8 ∧
      shownAt frames 1 3 = some 72 ∧
      ∀ k d : Nat, 1 ≤ k → k < 8 → d + 1 < 4 →
        ∃ c : Int, shownAt frames (k + 1) d = some c ∧ shownAt frames k (d + 1) = some c :=
  marquee_window_slide 2 (by decide) (by decide) [72, 73, 33] (by decide) (by decide) 0 9
    (by decide)

/-! ## The bit pulse, registration and the idle state -/

theorem exec_numScreens_nonneg (maxNumScreens : Int) (font : Int → Nat) (lastChar : Int)
    (st st' : Engine) (fuel : Nat) (op : Op) (tr : List Event)
    (hinv : 0 ≤ st.numScreens)
    (h : Op.exec maxNumScreens font lastChar st fuel op = .ok (st', tr)) :
    0 ≤ st'.numScreens := by
  cases op with
  | addScreen dataPin clockPin =>
    simp only [Op.exec, addScreen] at h
    by_cases h1 : st.numScreens = maxNumScreens
    · rw [if_pos h1] at h
      simp only [Except.ok.injEq, Prod.mk.injEq] at h
      rw [← h.1]
      exact hinv
    · rw [if_neg h1] at h
      by_cases h2 : 0 ≤ st.numScreens ∧ st.numScreens < maxNumScreens
      · rw [if_pos h2] at h
        simp only [Except.ok.injEq, Prod.mk.injEq] at h
        rw [← h.1]
        show 0 ≤ st.numScreens + 1
        omega
      · rw [if_neg h2] at h
        cases h
  | writeChars screen lchar rchar =>
    simp only [Op.exec, Except.ok.injEq] at h
    have h3 := writeChars_engine font lastChar st screen lchar rchar
    rw [h] at h3
    simp only at h3
    rw [h3]
    exact hinv
  | scroll msg delay_ms =>
    rw [scroll_engine font lastChar st st' msg delay_ms fuel tr h]
    exact hinv
  | digitTest screen startAt =>
    rw [digitTest_engine font lastChar st st' screen startAt fuel tr h]
    exact hinv

theorem reachable_numScreens_nonneg (maxNumScreens : Int) (font : Int → Nat)
    (lastChar : Int) (st : Engine) (h : Reachable maxNumScreens font lastChar st) :
    0 ≤ st.numScreens := by
  induction h with
  | fresh dataPins0 clockPins0 => exact le_refl _
  | step st st' op fuel tr _ hexec ih =>
    exact exec_numScreens_nonneg maxNumScreens font lastChar st st' fuel op tr ih hexec

/-- Claim C16: on every engine a program can hold with
`numScreens < maxNumScreens`, `addScreen(dataPin, clockPin)` stores
`dataPin` and `clockPin` at index `numScreens`, increases `numScreens` by
exactly 1, leaves every other entry of both arrays (so every lower index)
unchanged, and its trace is `pinMode(dataPin, OUTPUT)`,
`pinMode(clockPin, OUTPUT)`, `digitalWrite(dataPin, LOW)`,
`digitalWrite(clockPin, LOW)`. -/
theorem addScreen_below_capacity (maxNumScreens : Int) (font : Int → Nat) (lastChar : Int)
    (st : Engine) (hr : Reachable maxNumScreens font lastChar st)
    (hlt : st.numScreens < maxNumScreens) (dataPin clockPin : Int) :
    ∃ st' : Engine,
      addScreen maxNumScreens st dataPin clockPin =
        some (st', [Event.pinMode dataPin, Event.pinMode clockPin,
                    Event.digitalWrite dataPin false, Event.digitalWrite clockPin false]) ∧
      st'.numScreens = st.numScreens + 1 ∧
      st'.dataPins st.numScreens = dataPin ∧
      st'.clockPins st.numScreens = clockPin ∧
      ∀ i : Int, i ≠ st.numScreens →
        st'.dataPins i = st.dataPins i ∧ st'.clockPins i = st.clockPins i := by
  have h0 := reachable_numScreens_nonneg maxNumScreens font lastChar st hr
  have h1 : ¬ st.numScreens = maxNumScreens := by omega
  have h2 : 0 ≤ st.numScreens ∧ st.numScreens < maxNumScreens := ⟨h0, hlt⟩
  refine ⟨{ numScreens := st.numScreens + 1
            dataPins := store st.dataPins st.numScreens dataPin
            clockPins := store st.clockPins st.numScreens clockPin }, ?_, ?_, ?_, ?_, ?_⟩
  · simp only [addScreen]
    rw [if_neg h1, if_pos h2]
  · rfl
  · simp [store]
  · simp [store]
  · intro i hi
    simp [store, hi]

theorem addScreen_below_capacity_witness :
    ∃ st' : Engine,
      addScreen 2 demoOne 4 5 =
        some (st', [Event.pinMode 4, Event.pinMode 5,
                    Event.digitalWrite 4 false, Event.digitalWrite 5 false]) ∧
      st'.numScreens = demoOne.numScreens + 1 ∧
      st'.dataPins demoOne.numScreens = 4 ∧
      st'.clockPins demoOne.numScreens = 5 ∧
      ∀ i : Int, i ≠ demoOne.numScreens →
        st'.dataPins i = demoOne.dataPins i ∧ st'.clockPins i = demoOne.clockPins i :=
  addScreen_below_capacity 2 demoFont 95 demoOne
    (Reachable.step (new (fun _ => 0) (fun _ => 0)) demoOne (Op.addScreen 2 3) 0
      [Event.pinMode 2, Event.pinMode 3, Event.digitalWrite 2 false,
        Event.digitalWrite 3 false]
      (Reachable.fresh _ _) rfl)
    (by decide) 4 5

/-- Claim C17: the registry is immutable during output.  For all arguments,
`writeBit`, `writeMask` and `writeChars` return the engine they were given,
and whatever the outcome of `scroll` and `digitTest` (for every step
budget), the engine they return is the engine they were given: `numScreens`
and both pin arrays are as before the call. -/
theorem output_keeps_registry (font : Int → Nat) (lastChar : Int) (st : Engine) :
    (∀ (screen : Int) (bit : Bool), (writeBit st screen bit).1 = st) ∧
      (∀ (screen : Int) (frame : Nat), (writeMask st screen frame).1 = st) ∧
      (∀ screen lchar rchar : Int, (writeChars font lastChar st screen lchar rchar).1 = st) ∧
      (∀ (msg : List Int) (delay_ms : Int) (fuel : Nat),
        scroll font lastChar st msg delay_ms fuel =
          (scrollCalls st.numScreens msg delay_ms fuel).map
            (fun calls => (st, (performAll font lastChar st calls).2))) ∧
      (∀ (screen startAt : Int) (fuel : Nat),
        digitTest font lastChar st screen startAt fuel =
          (digitTestCalls lastChar screen startAt fuel).map
            (fun calls => (st, (performAll font lastChar st calls).2))) := by
  refine ⟨fun _ _ => rfl, ?_, ?_, ?_, ?_⟩
  · intro screen frame
    rw [writeMask_eq]
  · intro screen lchar rchar
    exact writeChars_engine font lastChar st screen lchar rchar
  · intro msg delay_ms fuel
    unfold scroll
    cases scrollCalls st.numScreens msg delay_ms fuel with
    | error e => rfl
    | ok calls =>
      simp only [bind, Except.bind, pure, Except.pure, Except.map, Except.ok.injEq]
      exact Prod.ext (performAll_engine font lastChar st calls) rfl
  · intro screen startAt fuel
    unfold digitTest
    cases digitTestCalls lastChar screen startAt fuel with
    | error e => rfl
    | ok calls =>
      simp only [bind, Except.bind, pure, Except.pure, Except.map, Except.ok.injEq]
      exact Prod.ext (performAll_engine font lastChar st calls) rfl

theorem lastLevel_append (pin : Int) (a b : List Event) :
    lastLevel pin (a ++ b) =
      match lastLevel pin b with
      | some v => some v
      | none => lastLevel pin a := by
  induction a with
  | nil =>
    cases h : lastLevel pin b with
    | none => simp [lastLevel, h]
    | some v => simp [h]
  | cons e es ih =>
    rw [List.cons_append]
    simp only [lastLevel]
    rw [ih]
    cases lastLevel pin b <;> rfl

theorem countHigh_append (pin : Int) (a b : List Event) :
    countHigh pin (a ++ b) = countHigh pin a + countHigh pin b := by
  simp [countHigh, List.countP_append]

theorem countHigh_writeBit (st : Engine) (screen : Int) (bit : Bool)
    (hne : st.dataPins screen ≠ st.clockPins screen) :
    countHigh (st.clockPins screen) (writeBit st screen bit).2 = 1 := by
  simp [countHigh, writeBit, List.countP_cons, hne]

theorem countHigh_bits (st : Engine) (screen : Int)
    (hne : st.dataPins screen ≠ st.clockPins screen) (bits : List Bool) :
    countHigh (st.clockPins screen) (bits.flatMap (fun b => (writeBit st screen b).2)) =
      bits.length := by
  induction bits with
  | nil => rfl
  | cons b bs ih =>
    rw [List.flatMap_cons, countHigh_append, ih, countHigh_writeBit st screen b hne,
      List.length_cons]
    omega

theorem wireBits_snoc (frame : Nat) :
    wireBits frame =
      ([true, false] ++ (List.range 32).map (fun i => frame.testBit i) ++ [false]) ++
        [false] := by
  simp [wireBits]

theorem writeMask_lastLevel (st : Engine) (screen : Int) (frame : Nat)
    (hne : st.dataPins screen ≠ st.clockPins screen) :
    lastLevel (st.dataPins screen) (writeMask st screen frame).2 = some false ∧
      lastLevel (st.clockPins screen) (writeMask st screen frame).2 = some false := by
  have hne' : ¬ st.clockPins screen = st.dataPins screen := fun h => hne h.symm
  have hd : lastLevel (st.dataPins screen) (writeBit st screen false).2 = some false := by
    simp [writeBit, lastLevel, hne']
  have hc : lastLevel (st.clockPins screen) (writeBit st screen false).2 = some false := by
    simp [writeBit, lastLevel]
  rw [writeMask_eq, wireBits_snoc]
  simp only [List.flatMap_append, List.flatMap_cons, List.flatMap_nil, List.append_nil]
  constructor
  · rw [lastLevel_append, hd]
  · rw [lastLevel_append, hc]

/-- Claim C19: idle state after a frame.  For every chain `screen` whose data
pin and clock pin are distinct and every frame, in the trace of `writeMask`
(hence of every `writeChars` on that chain) the level last driven on the data
pin is LOW, the level last driven on the clock pin is LOW, and the clock pin
is driven HIGH exactly 36 times; LOW on both pins is also the level
`addScreen` last drives when it registers a chain. -/
theorem writeMask_idle_state (st : Engine) (screen : Int) (frame : Nat)
    (hne : st.dataPins screen ≠ st.clockPins screen) :
    lastLevel (st.dataPins screen) (writeMask st screen frame).2 = some false ∧
      lastLevel (st.clockPins screen) (writeMask st screen frame).2 = some false ∧
      countHigh (st.clockPins screen) (writeMask st screen frame).2 = 36 ∧
      (∀ (font : Int → Nat) (lastChar lchar rchar : Int),
        lastLevel (st.dataPins screen)
            (writeChars font lastChar st screen lchar rchar).2 = some false ∧
          lastLevel (st.clockPins screen)
            (writeChars font lastChar st screen lchar rchar).2 = some false ∧
          countHigh (st.clockPins screen)
            (writeChars font lastChar st screen lchar rchar).2 = 36) ∧
      (∀ (maxNumScreens : Int) (st0 : Engine) (dataPin clockPin : Int),
        0 ≤ st0.numScreens → st0.numScreens < maxNumScreens →
        ∃ st' tr, addScreen maxNumScreens st0 dataPin clockPin = some (st', tr) ∧
          lastLevel dataPin tr = some false ∧ lastLevel clockPin tr = some false) := by
  have hcount : ∀ f : Nat, countHigh (st.clockPins screen) (writeMask st screen f).2 = 36 := by
    intro f
    rw [writeMask_eq]
    show countHigh _ ((wireBits f).flatMap (fun b => (writeBit st screen b).2)) = 36
    rw [countHigh_bits st screen hne]
    simp [wireBits]
  refine ⟨(writeMask_lastLevel st screen frame hne).1,
    (writeMask_lastLevel st screen frame hne).2, hcount frame, ?_, ?_⟩
  · intro font lastChar lchar rchar
    exact ⟨(writeMask_lastLevel st screen _ hne).1, (writeMask_lastLevel st screen _ hne).2,
      hcount _⟩
  · intro maxNumScreens st0 dataPin clockPin h0 h1
    have hn : ¬ st0.numScreens = maxNumScreens := by omega
    have ha : addScreen maxNumScreens st0 dataPin clockPin =
        some ({ numScreens := st0.numScreens + 1
                dataPins := store st0.dataPins st0.numScreens dataPin
                clockPins := store st0.clockPins st0.numScreens clockPin },
              [Event.pinMode dataPin, Event.pinMode clockPin,
               Event.digitalWrite dataPin false, Event.digitalWrite clockPin false]) := by
      simp only [addScreen]
      rw [if_neg hn, if_pos ⟨h0, h1⟩]
    refine ⟨_, _, ha, ?_, ?_⟩
    · by_cases h : clockPin = dataPin
      · simp [lastLevel, h]
      · simp [lastLevel, h]
    · simp [lastLevel]

theorem writeMask_idle_state_witness :
    lastLevel 2 (writeMask demoEngine 0 0xFFFFFFFF).2 = some false ∧
      lastLevel 3 (writeMask demoEngine 0 0xFFFFFFFF).2 = some false ∧
      countHigh 3 (writeMask demoEngine 0 0xFFFFFFFF).2 = 36 :=
  ⟨(writeMask_idle_state demoEngine 0 0xFFFFFFFF (by decide)).1,
    (writeMask_idle_state demoEngine 0 0xFFFFFFFF (by decide)).2.1,
    (writeMask_idle_state demoEngine 0 0xFFFFFFFF (by decide)).2.2.1⟩

/-! ## The diagnostic sweep -/

theorem digitTestLoop_steps (lastChar screen : Int) (hl : lastChar ≤ 125) :
    ∀ (m : Nat) (i : Int) (fuel : Nat), -128 ≤ i →
      (if i > lastChar then 0 else ((lastChar - i) / 2).toNat + 1) = m → m < fuel →
      digitTestLoop lastChar screen fuel i =
        .ok ((List.range m).flatMap (digitTestStep screen i)) := by
  intro m
  induction m with
  | zero =>
    intro i fuel _ hm hf
    obtain ⟨f, rfl⟩ : ∃ f, fuel = f + 1 := ⟨fuel - 1, by omega⟩
    have hi : ¬ i ≤ lastChar := by
      intro h
      rw [if_neg (by omega)] at hm
      omega
    simp only [digitTestLoop, if_neg hi]
    rfl
  | succ m ih =>
    intro i fuel hi0 hm hf
    obtain ⟨f, rfl⟩ : ∃ f, fuel = f + 1 := ⟨fuel - 1, by omega⟩
    have hi : i ≤ lastChar := by
      by_contra h
      rw [if_pos (by omega)] at hm
      omega
    rw [if_neg (by omega)] at hm
    have h1 : toChar (i + 1) = i + 1 := toChar_id _ (by omega) (by omega)
    have h2 : toChar (i + 2) = i + 2 := toChar_id _ (by omega) (by omega)
    have hr := ih (i + 2) f (by omega)
      (by split_ifs <;> omega) (by omega)
    have hstep : ∀ j : Nat, digitTestStep screen (i + 2) j = digitTestStep screen i (j + 1) := by
      intro j
      simp only [digitTestStep, Nat.cast_add, Nat.cast_one]
      congr 2 <;> ring
    have hfun : digitTestStep screen (i + 2) = fun j => digitTestStep screen i (j + 1) :=
      funext hstep
    rw [hfun] at hr
    simp only [digitTestLoop, if_pos hi, h1, h2, hr, bind, Except.bind, pure, Except.pure,
      List.range_succ_eq_map, List.flatMap_cons, List.flatMap_map]
    simp [digitTestStep, Function.comp_def]

/-- Claim C14: for every chain index `screen` and every start character `c0`
(a `char`), with `lastChar ≤ 125`: if `c0 > lastChar`, `digitTest` makes no
call and its trace is empty; otherwise it makes exactly
`(lastChar - c0) / 2 + 1` steps, step `j` being
`writeChars(screen, c0 + 2j, c0 + 2j + 1)` followed by `delay(1500)`, all on
chain `screen`.  In both cases it returns, given a step budget above the
number of steps, with the engine unchanged. -/
theorem digitTest_sweep (font : Int → Nat) (lastChar : Int) (st : Engine)
    (screen c0 : Int) (hl : lastChar ≤ 125) (hc0 : -128 ≤ c0) :
    (c0 > lastChar → ∀ fuel : Nat, 0 < fuel →
        digitTestCalls lastChar screen c0 fuel = .ok [] ∧
        digitTest font lastChar st screen c0 fuel = .ok (st, [])) ∧
      (c0 ≤ lastChar → ∀ fuel : Nat, ((lastChar - c0) / 2).toNat + 1 < fuel →
        digitTestCalls lastChar screen c0 fuel =
          .ok ((List.range (((lastChar - c0) / 2).toNat + 1)).flatMap
            (digitTestStep screen c0)) ∧
        digitTest font lastChar st screen c0 fuel =
          .ok (st, (performAll font lastChar st
            ((List.range (((lastChar - c0) / 2).toNat + 1)).flatMap
              (digitTestStep screen c0))).2)) := by
  constructor
  · intro h fuel hf
    have hcalls : digitTestCalls lastChar screen c0 fuel = .ok [] := by
      have := digitTestLoop_steps lastChar screen hl 0 c0 fuel hc0 (by rw [if_pos h]) hf
      simpa [digitTestCalls] using this
    refine ⟨hcalls, ?_⟩
    simp [digitTest, hcalls, bind, Except.bind, pure, Except.pure, performAll]
  · intro h fuel hf
    have hcalls := digitTestLoop_steps lastChar screen hl _ c0 fuel hc0
      (by rw [if_neg (by omega)]) hf
    refine ⟨hcalls, ?_⟩
    have he := performAll_engine font lastChar st
      ((List.range (((lastChar - c0) / 2).toNat + 1)).flatMap (digitTestStep screen c0))
    have hcalls' : digitTestCalls lastChar screen c0 fuel = _ := hcalls
    simp only [digitTest, hcalls', bind, Except.bind, pure, Except.pure, Except.ok.injEq]
    exact Prod.ext he rfl

theorem digitTest_sweep_witness :
    digitTestCalls 37 0 32 5 =
      .ok [Call.writeChars 0 32 33, Call.delay 1500, Call.writeChars 0 34 35,
           Call.delay 1500, Call.writeChars 0 36 37, Call.delay 1500] :=
  ((digitTest_sweep demoFont 37 demoEngine 0 32 (by decide) (by decide)).2
    (by decide) 5 (by decide)).1

/-! ## The shape of a frame -/

theorem scrollScreens_shape (msg : List Int) (numDigits lastDigit : Int) (cur : Cursor) :
    ∀ (n : Nat) (calls : List Call),
      scrollScreens msg numDigits lastDigit cur n = .ok calls →
      ∃ ws : List (Int × Int × Int),
        calls = ws.map (fun w => Call.writeChars w.1 w.2.1 w.2.2) ∧
        ws.map (fun w => w.1) = (List.range n).reverse.map (fun (s : Nat) => (s : Int)) ∧
        ∀ w ∈ ws,
          digitChar msg numDigits lastDigit cur (w.1 * 2) = .ok w.2.1 ∧
          digitChar msg numDigits lastDigit cur (w.1 * 2 + 1) = .ok w.2.2 := by
  intro n
  induction n with
  | zero =>
    intro calls h
    simp only [scrollScreens, Except.ok.injEq] at h
    exact ⟨[], by simp [← h], by simp, by simp⟩
  | succ n ih =>
    intro calls h
    simp only [scrollScreens, bind, Except.bind, pure, Except.pure] at h
    cases hr : digitChar msg numDigits lastDigit cur ((n : Int) * 2 + 1) with
    | error e => rw [hr] at h; cases h
    | ok right =>
      rw [hr] at h
      simp only at h
      cases hl : digitChar msg numDigits lastDigit cur ((n : Int) * 2) with
      | error e => rw [hl] at h; cases h
      | ok left =>
        rw [hl] at h
        simp only at h
        cases hs : scrollScreens msg numDigits lastDigit cur n with
        | error e => rw [hs] at h; cases h
        | ok rest =>
          rw [hs] at h
          simp only [Except.ok.injEq] at h
          obtain ⟨ws, hws1, hws2, hws3⟩ := ih rest hs
          refine ⟨((n : Int), left, right) :: ws, ?_, ?_, ?_⟩
          · simp [← h, hws1]
          · simp [hws2, List.range_succ]
          · intro w hw
            rcases List.mem_cons.mp hw with rfl | hw'
            · exact ⟨hl, hr⟩
            · exact hws3 w hw'

theorem scrollLoop_shape (msg : List Int) (numScreens delay_ms : Int) :
    ∀ (fuel : Nat) (cur : Cursor) (calls : List Call),
      scrollLoop msg numScreens delay_ms fuel cur = .ok calls →
      ∃ frames : List (Cursor × List (Int × Int × Int)),
        calls = frames.flatMap (fun f => frameCalls delay_ms f.2) ∧
        (∀ f, frames[0]? = some f → f.1 = cur) ∧
        (∀ (j : Nat) (f g : Cursor × List (Int × Int × Int)),
          frames[j]? = some f → frames[j + 1]? = some g →
          scrollAdvance msg f.1 = .ok g.1) ∧
        ∀ f ∈ frames,
          f.1.lowestDigitPadded ≥ 0 ∧
          f.2.map (fun w => w.1) =
            (List.range numScreens.toNat).reverse.map (fun (s : Nat) => (s : Int)) ∧
          ∀ w ∈ f.2,
            digitChar msg (numScreens * 2) (numScreens * 2 - 1) f.1 (w.1 * 2) = .ok w.2.1 ∧
            digitChar msg (numScreens * 2) (numScreens * 2 - 1) f.1 (w.1 * 2 + 1) =
              .ok w.2.2 := by
  intro fuel
  induction fuel with
  | zero =>
    intro cur calls h
    simp only [scrollLoop] at h
    cases h
  | succ fuel ih =>
    intro cur calls h
    simp only [scrollLoop] at h
    by_cases hl : cur.lowestDigitPadded ≥ 0
    · rw [if_pos hl] at h
      simp only [bind, Except.bind, pure, Except.pure] at h
      cases hs : scrollScreens msg (numScreens * 2) (numScreens * 2 - 1) cur
          numScreens.toNat with
      | error e => rw [hs] at h; cases h
      | ok fcalls =>
        rw [hs] at h
        simp only at h
        cases ha : scrollAdvance msg cur with
        | error e => rw [ha] at h; cases h
        | ok cur' =>
          rw [ha] at h
          simp only at h
          cases hrest : scrollLoop msg numScreens delay_ms fuel cur' with
          | error e => rw [hrest] at h; cases h
          | ok rest =>
            rw [hrest] at h
            simp only [Except.ok.injEq] at h
            obtain ⟨ws, hws1, hws2, hws3⟩ :=
              scrollScreens_shape msg _ _ cur numScreens.toNat fcalls hs
            obtain ⟨frames, hf1, hhead, hchain, hf2⟩ := ih cur' rest hrest
            refine ⟨(cur, ws) :: frames, ?_, ?_, ?_, ?_⟩
            · simp [← h, hws1, hf1, frameCalls]
            · intro f hf
              simp only [List.getElem?_cons_zero, Option.some.injEq] at hf
              rw [← hf]
            · intro j f g hf hg
              cases j with
              | zero =>
                simp only [List.getElem?_cons_zero, Option.some.injEq] at hf
                simp only [Nat.zero_add, List.getElem?_cons_succ] at hg
                rw [← hf, hhead g hg]
                exact ha
              | succ j =>
                simp only [List.getElem?_cons_succ] at hf hg
                exact hchain j f g hf hg
            · intro f hf
              rcases List.mem_cons.mp hf with rfl | hf'
              · exact ⟨hl, hws2, hws3⟩
              · exact hf2 f hf'
    · rw [if_neg hl] at h
      simp only [pure, Except.pure, Except.ok.injEq] at h
      exact ⟨[], by simp [← h], by simp, by simp, by simp⟩

/-- Claim C12: in every animation frame of `scroll` on `numScreens` chains,
`writeChars` is called exactly once per chain, in descending chain order
`numScreens - 1, ..., 0`; the call for chain `k` carries as left argument the
character of digit `2k` and as right argument the character of digit
`2k + 1`, and the frame ends with one `delay(delay_ms)`.

First part, for every number of chains: the calls of a run that returns are
a concatenation of such frames, where the cursors of the first frame are the
initial values of `scroll`, the cursors of each later frame are those of the
frame before it after the updates at the end of the loop body, and the
character of a digit is what the loop body computes for it with the cursors
of that frame.

Second part, for up to 63 chains and a non-empty message of length `L`: the
run returns once the step budget exceeds `L + 2n + 1`, and its calls are
exactly these: in frame `k`, for `s = n-1, ..., 0`, one call
`writeChars(s, l, r)` with `l` the padded-message character at offset
`2s + k - 2n` (digit `2s`) and `r` the one at offset `2s + 1 + k - 2n`
(digit `2s + 1`), then `delay(delay_ms)`. -/
theorem scroll_frame_shape (numScreens : Int) (msg : List Int) (delay_ms : Int)
    (fuel : Nat) :
    (∀ calls : List Call, scrollCalls numScreens msg delay_ms fuel = .ok calls →
      ∃ frames : List (Cursor × List (Int × Int × Int)),
        calls = frames.flatMap (fun f => frameCalls delay_ms f.2) ∧
        (∀ f, frames[0]? = some f →
          f.1 = { farRight := 0
                  stringExhausted := false
                  highestDigitPadded := toChar (numScreens * 2 - 1 - 1)
                  lowestDigitPadded := toChar (numScreens * 2 - 1 + 1) }) ∧
        (∀ (j : Nat) (f g : Cursor × List (Int × Int × Int)),
          frames[j]? = some f → frames[j + 1]? = some g →
          scrollAdvance msg f.1 = .ok g.1) ∧
        ∀ f ∈ frames,
          f.1.lowestDigitPadded ≥ 0 ∧
          f.2.map (fun w => w.1) =
            (List.range numScreens.toNat).reverse.map (fun (s : Nat) => (s : Int)) ∧
          ∀ w ∈ f.2,
            digitChar msg (numScreens * 2) (numScreens * 2 - 1) f.1 (w.1 * 2) = .ok w.2.1 ∧
            digitChar msg (numScreens * 2) (numScreens * 2 - 1) f.1 (w.1 * 2 + 1) =
              .ok w.2.2) ∧
      (∀ n : Nat, numScreens = (n : Int) → n ≤ 63 → msg ≠ [] → (∀ c ∈ msg, c ≠ 0) →
        msg.length + 2 * n + 1 < fuel →
        scrollCalls numScreens msg delay_ms fuel =
          .ok ((List.range' 1 (msg.length + 2 * n + 1)).flatMap (fun k =>
            frameCalls delay_ms ((List.range n).reverse.map (fun (s : Nat) =>
              ((s : Int), paddedChar msg (2 * (s : Int) + k - 2 * n),
                paddedChar msg (2 * (s : Int) + 1 + k - 2 * n))))))) := by
  constructor
  · intro calls h
    simp only [scrollCalls, bind, Except.bind, pure, Except.pure] at h
    cases hd : deref msg 0 with
    | error e => rw [hd] at h; cases h
    | ok c =>
      rw [hd] at h
      simp only at h
      by_cases hc : c = 0
      · rw [if_pos hc] at h
        simp only [Except.ok.injEq] at h
        exact ⟨[], by simp [← h], by simp, by simp, by simp⟩
      · rw [if_neg hc] at h
        exact scrollLoop_shape msg numScreens delay_ms fuel _ calls h
  · intro n hn hn63 hne hz hf
    rw [hn]
    exact scrollCalls_closed_form msg hne hz n hn63 delay_ms fuel hf

theorem scroll_frame_shape_witness :
    scrollCalls ((2 : Nat) : Int) [72] 7 10 =
        .ok ((List.range' 1 (([72] : List Int).length + 2 * 2 + 1)).flatMap (fun k =>
          frameCalls 7 ((List.range 2).reverse.map (fun (s : Nat) =>
            ((s : Int), paddedChar [72] (2 * (s : Int) + k - 2 * (2 : Nat)),
              paddedChar [72] (2 * (s : Int) + 1 + k - 2 * (2 : Nat))))))) ∧
      ∃ frames : List (Cursor × List (Int × Int × Int)),
        [Call.writeChars 1 32 72, Call.writeChars 0 32 32, Call.delay 7,
         Call.writeChars 1 72 0, Call.writeChars 0 32 32, Call.delay 7,
         Call.writeChars 1 0 32, Call.writeChars 0 32 72, Call.delay 7,
         Call.writeChars 1 32 32, Call.writeChars 0 72 0, Call.delay 7,
         Call.writeChars 1 32 32, Call.writeChars 0 0 32, Call.delay 7,
         Call.writeChars 1 32 32, Call.writeChars 0 32 32, Call.delay 7] =
          frames.flatMap (fun f => frameCalls 7 f.2) ∧
        (∀ f, frames[0]? = some f →
          f.1 = { farRight := 0
                  stringExhausted := false
                  highestDigitPadded := toChar (2 * 2 - 1 - 1)
                  lowestDigitPadded := toChar (2 * 2 - 1 + 1) }) ∧
        (∀ (j : Nat) (f g : Cursor × List (Int × Int × Int)),
          frames[j]? = some f → frames[j + 1]? = some g →
          scrollAdvance [72] f.1 = .ok g.1) ∧
        ∀ f ∈ frames,
          f.1.lowestDigitPadded ≥ 0 ∧
          f.2.map (fun w => w.1) =
            (List.range (2 : Int).toNat).reverse.map (fun (s : Nat) => (s : Int)) ∧
          ∀ w ∈ f.2,
            digitChar [72] (2 * 2) (2 * 2 - 1) f.1 (w.1 * 2) = .ok w.2.1 ∧
            digitChar [72] (2 * 2) (2 * 2 - 1) f.1 (w.1 * 2 + 1) = .ok w.2.2 :=
  ⟨(scroll_frame_shape ((2 : Nat) : Int) [72] 7 10).2 2 rfl (by decide) (by decide)
    (by decide) (by decide),
   (scroll_frame_shape 2 [72] 7 10).1 _ rfl⟩

/-- Claim C11 fails on the code: with one chain and the message `"HI"`, the
third frame is `writeChars(0, 'I', '\0')` and the fourth is
`writeChars(0, '\0', ' ')`.  In the frame after the last character the string
is exhausted but no trailing pad digit exists yet, so the rightmost digit
reads `*farRight`, the terminating null, and passes it to `writeChars`; the
null is neither the blank `' ' = 32` nor a character of the message. -/
theorem scroll_passes_terminating_null :
    scrollCalls 1 [72, 73] 0 6 =
        .ok (([[(0, 32, 72)], [(0, 72, 73)], [(0, 73, 0)], [(0, 0, 32)], [(0, 32, 32)]] :
          List (List (Int × Int × Int))).flatMap (frameCalls 0)) ∧
      shownAt [[(0, 32, 72)], [(0, 72, 73)], [(0, 73, 0)], [(0, 0, 32)], [(0, 32, 32)]] 3 1 =
        some 0 ∧
      (0 : Int) ≠ 32 ∧ (0 : Int) ∉ ([72, 73] : List Int) := by
  refine ⟨rfl, rfl, by decide, by decide⟩

/-- Claim C13 as stated fails for 64 or more chains (the signed 8-bit cursor
`lowestDigitPadded` wraps to `-128`): with 64 chains and the message `"OK"`,
`scroll` makes no call, so there is no first frame showing the first
character and no last frame blanking the display. -/
theorem scroll_sixty_four_chains_never_blanks :
    scrollCalls 64 [79, 75] 0 200 = .ok [] ∧
      ∀ frames : List (List (Int × Int × Int)),
        frames.flatMap (frameCalls 0) = [] →
          shownAt frames 1 127 = none ∧ frames.getLast? = none := by
  refine ⟨rfl, ?_⟩
  intro frames h
  cases frames with
  | nil => exact ⟨rfl, rfl⟩
  | cons f fs => simp [frameCalls] at h

/-- Claim C13, amended with the bound `n ≤ 63` on the number of chains: for
`1 ≤ n ≤ 63` chains and every non-empty message of any length `L` (also
`L < 2n`), the first frame of `scroll` writes the blank to every digit except
the rightmost, which shows the first character, and the last frame, number
`L + 2n + 1`, writes the blank `' '` to both digits of every chain. -/
theorem marquee_on_and_off (n : Nat) (hn1 : 1 ≤ n) (hn : n ≤ 63)
    (msg : List Int) (hne : msg ≠ []) (hz : ∀ c ∈ msg, c ≠ 0)
    (delay_ms : Int) (fuel : Nat) (hf : msg.length + 2 * n + 1 < fuel) :
    ∃ frames : List (List (Int × Int × Int)),
      scrollCalls (n : Int) msg delay_ms fuel = .ok (frames.flatMap (frameCalls delay_ms)) ∧
      frames.length = msg.length + 2 * n + 1 ∧
      (∀ d : Nat, d + 1 < 2 * n → shownAt frames 1 d = some 32) ∧
      shownAt frames 1 (2 * n - 1) = msg[0]? ∧
      (∀ d : Nat, d < 2 * n → shownAt frames (msg.length + 2 * n + 1) d = some 32) ∧
      frames.getLast? = some ((List.range n).reverse.map (fun (s : Nat) => ((s : Int), 32, 32))) := by
  have hc := scrollCalls_closed_form msg hne hz n hn delay_ms fuel hf
  rw [← flatMap_closedFrames] at hc
  have hlen : 0 < msg.length := List.length_pos.mpr hne
  refine ⟨closedFrames msg n, hc, length_closedFrames msg n, ?_, ?_, ?_, ?_⟩
  · intro d hd
    rw [shownAt_closedFrames msg n 1 d (le_refl 1) (by omega) (by omega)]
    rw [paddedChar_neg _ _ (by push_cast; omega)]
  · rw [shownAt_closedFrames msg n 1 (2 * n - 1) (le_refl 1) (by omega) (by omega)]
    have h0 : ((2 * n - 1 : Nat) : Int) + (1 : Nat) - 2 * n = ((0 : Nat) : Int) := by omega
    rw [h0]
    exact (paddedChar_inside msg 0 hlen).symm
  · intro d hd
    rw [shownAt_closedFrames msg n _ d (by omega) (le_refl _) hd]
    rw [paddedChar_past _ _ (by push_cast; omega)]
  · unfold closedFrames
    rw [List.getLast?_map, List.range'_1_concat, List.getLast?_concat]
    simp only [Option.map_some', closedFrame]
    congr 1
    apply List.map_congr_left
    intro s _
    rw [paddedChar_past _ _ (by push_cast; omega), paddedChar_past _ _ (by push_cast; omega)]

theorem marquee_on_and_off_witness :
    ∃ frames : List (List (Int × Int × Int)),
      scrollCalls ((2 : Nat) : Int) [72] 0 7 = .ok (frames.flatMap (frameCalls 0)) ∧
      frames.length = 6 ∧
      (∀ d : Nat, d + 1 < 4 → shownAt frames 1 d = some 32) ∧
      shownAt frames 1 3 = some 72 ∧
      (∀ d : Nat, d < 4 → shownAt frames 6 d = some 32) ∧
      frames.getLast? = some [(1, 32, 32), (0, 32, 32)] :=
  marquee_on_and_off 2 (by decide) (by decide) [72] (by decide) (by decide) 0 7 (by decide)

/-! ## Reads of the message -/

theorem deref_ok_iff (msg : List Int) (i : Int) :
    (∃ c, deref msg i = .ok c) ↔ (0 ≤ i ∧ i ≤ msg.length) := by
  constructor
  · rintro ⟨c, h⟩
    unfold deref at h
    by_cases h0 : i < 0
    · rw [if_pos h0] at h
      cases h
    · rw [if_neg h0] at h
      cases hg : msg[i.toNat]? with
      | some v =>
        have hlt : i.toNat < msg.length := (List.getElem?_eq_some_iff.mp hg).1
        omega
      | none =>
        rw [hg] at h
        simp only at h
        by_cases he : i = msg.length
        · omega
        · rw [if_neg he] at h
          cases h
  · rintro ⟨h0, h1⟩
    exact ⟨_, deref_eq_paddedChar msg i h0 h1⟩

theorem scrollLoop_no_fault (msg : List Int) (hz : ∀ c ∈ msg, c ≠ 0) (n : Nat)
    (hn : n ≤ 63) (delay_ms : Int) :
    ∀ (fuel k : Nat), 1 ≤ k →
      scrollLoop msg (n : Int) delay_ms fuel (cursorAt n msg.length k) ≠
        .error .outOfBounds := by
  intro fuel
  induction fuel with
  | zero =>
    intro k _ h
    simp only [scrollLoop] at h
    cases h
  | succ fuel ih =>
    intro k hk1 h
    simp only [scrollLoop] at h
    by_cases hl : (cursorAt n msg.length k).lowestDigitPadded ≥ 0
    · have hk2 : k ≤ msg.length + 2 * n + 1 := by
        simp only [cursorAt] at hl
        split_ifs at hl <;> omega
      have hs := scrollScreens_cursorAt msg n k n (le_refl n)
      have ha := scrollAdvance_cursorAt msg hz n k hn hk1 hk2
      rw [if_pos hl] at h
      simp only [Int.toNat_ofNat, hs, ha, bind, Except.bind, pure, Except.pure] at h
      cases hrest : scrollLoop msg (n : Int) delay_ms fuel (cursorAt n msg.length (k + 1)) with
      | error e =>
        rw [hrest] at h
        simp only [Except.error.injEq] at h
        rw [h] at hrest
        exact ih (k + 1) (by omega) hrest
      | ok rest =>
        rw [hrest] at h
        cases h
    · rw [if_neg hl] at h
      cases h

theorem scrollCalls_no_fault (msg : List Int) (hne : msg ≠ []) (hz : ∀ c ∈ msg, c ≠ 0)
    (n : Nat) (hn : n ≤ 63) (delay_ms : Int) (fuel : Nat) :
    scrollCalls (n : Int) msg delay_ms fuel ≠ .error .outOfBounds := by
  have hlen : 0 < msg.length := List.length_pos.mpr hne
  have hd : deref msg 0 = .ok (paddedChar msg ((0 : Nat) : Int)) :=
    deref_eq_paddedChar msg _ (by omega) (by omega)
  have h0 := paddedChar_inside_ne_zero msg hz 0 hlen
  have hc : ({ farRight := 0, stringExhausted := false,
               highestDigitPadded := toChar ((n : Int) * 2 - 1 - 1),
               lowestDigitPadded := toChar ((n : Int) * 2 - 1 + 1) } : Cursor) =
      cursorAt n msg.length 1 := by
    simp only [cursorAt, toChar, Cursor.mk.injEq, Nat.cast_one]
    refine ⟨?_, ?_, ?_, ?_⟩
    · split_ifs <;> omega
    · symm
      exact decide_eq_false (by omega)
    · split_ifs <;> omega
    · split_ifs <;> omega
  simp only [scrollCalls, hd, bind, Except.bind, if_neg h0, hc]
  exact scrollLoop_no_fault msg hz n hn delay_ms fuel 1 (le_refl 1)

/-- Claim C18: message reads stay in bounds.  A read of the message returns
a character exactly at the offsets `0..L` and is a fault everywhere else; for
every number `n ≥ 0` of chains with `2n + 1 ≤ 127` and every non-empty
message of length `L`, no run of `scroll`, whatever its step budget, ever
meets such a fault (neither in a digit lookup nor in the exhaustion test),
and with a step budget above `L + 2n + 1` the run returns. -/
theorem scroll_reads_in_bounds (n : Nat) (h127 : 2 * n + 1 ≤ 127)
    (msg : List Int) (hne : msg ≠ []) (hz : ∀ c ∈ msg, c ≠ 0) (delay_ms : Int) :
    (∀ i : Int, (∃ c, deref msg i = .ok c) ↔ (0 ≤ i ∧ i ≤ msg.length)) ∧
      (∀ fuel : Nat, scrollCalls (n : Int) msg delay_ms fuel ≠ .error .outOfBounds) ∧
      (∀ fuel : Nat, msg.length + 2 * n + 1 < fuel →
        ∃ calls : List Call, scrollCalls (n : Int) msg delay_ms fuel = .ok calls) := by
  refine ⟨deref_ok_iff msg, ?_, ?_⟩
  · intro fuel
    exact scrollCalls_no_fault msg hne hz n (by omega) delay_ms fuel
  · intro fuel hf
    exact ⟨_, scrollCalls_closed_form msg hne hz n (by omega) delay_ms fuel hf⟩

theorem scroll_reads_in_bounds_witness :
    (∀ i : Int, (∃ c, deref [72] i = .ok c) ↔ (0 ≤ i ∧ i ≤ ([72] : List Int).length)) ∧
      (∀ fuel : Nat, scrollCalls ((3 : Nat) : Int) [72] 0 fuel ≠ .error .outOfBounds) ∧
      (∀ fuel : Nat, ([72] : List Int).length + 2 * 3 + 1 < fuel →
        ∃ calls : List Call, scrollCalls ((3 : Nat) : Int) [72] 0 fuel = .ok calls) :=
  scroll_reads_in_bounds 3 (by decide) [72] (by decide) (by decide) 0

end Sixteen
